import Mathlib

/-!
# tg-vnstant-monitor: a shallow embedding of `main.go`

The program reads monthly traffic counters from `vnstat`, enriches them with
geolocation data and composes a text report.  This file embeds the pure parts
of `main.go` and states the properties of the specification over them.

Conventions of the embedding:

* Go `uint64` values are `Nat` with an explicit `% 2^64` where the source can
  overflow; Go `int` values are `Int`.
* Go `float64` values are the type `F64`: NaN, the two infinities, and the
  finite values `± m * 2^e` given by sign, magnitude and binary exponent.
  Arithmetic rounds to the nearest representable value, ties to even.
* Go strings that come out of a JSON decoder are valid UTF-8, so they are Lean
  `String`s; `len(s)` is `String.utf8ByteSize` and `[]rune(s)` is the list of
  characters.
* A Go call either returns, panics, or (for an out-of-range float to integer
  conversion) has an implementation-dependent result: the type `Outcome`.
-/

namespace VnstatMonitor

/-! ## Outcomes of a call -/

/-- Result of running a Go function: a returned value, a run-time panic, or a
value the language leaves to the implementation. -/
inductive Outcome (α : Type) where
  | ok (a : α)
  | panic
  | implDependent
deriving DecidableEq, Repr

/-! ## float64 -/

/-- Halving loop behind `bitLen`; `fuel` bounds the number of halvings. -/
def bitLenAux : Nat → Nat → Nat
  | 0, _ => 0
  | fuel + 1, n => if n = 0 then 0 else bitLenAux fuel (n / 2) + 1

/-- Number of binary digits of `n`; `0` for `n = 0`. -/
def bitLen (n : Nat) : Nat := bitLenAux n n

/-- Nearest integer to `num / den`, ties to the even integer.  With `sticky`
the true value lies strictly between `num / den` and `(num + 1) / den`, which
only matters at a tie. -/
def roundHalfEven (num den : Nat) (sticky : Bool) : Nat :=
  let q := num / den
  let r := num % den
  if den < 2 * r ∨ (2 * r = den ∧ (sticky = true ∨ q % 2 = 1)) then q + 1 else q

/-- A `float64` value: NaN, an infinity with its sign, or the finite value
`(-1)^neg * m * 2^e`. -/
inductive F64 where
  | nan
  | inf (neg : Bool)
  | fin (neg : Bool) (m : Nat) (e : Int)
deriving DecidableEq, Repr

namespace F64

/-- Round the real number `(-1)^neg * m * 2^e` (slightly more with `sticky`)
to `float64`: 53 significant bits, least exponent `-1074`, a signed zero when
the value rounds to nothing, overflow to the infinity from `2^1024` on. -/
def round (neg : Bool) (m : Nat) (e : Int) (sticky : Bool) : F64 :=
  let s : Nat := (max (e + (bitLen m : Int) - 53) (-1074) - e).toNat
  let q := roundHalfEven m (2 ^ s) sticky
  if q = 0 then fin neg 0 0
  else if 1024 < (bitLen q : Int) + (e + (s : Int)) then inf neg
  else fin neg q (e + (s : Int))

/-- Conversion `float64(n)` of an unsigned integer. -/
def ofNat (n : Nat) : F64 := round false n 0 false

/-- Conversion `float64(i)` of a signed integer. -/
def ofInt (i : Int) : F64 := round (decide (i < 0)) i.natAbs 0 false

/-- Product `x * y`. -/
def mul : F64 → F64 → F64
  | nan, _ => nan
  | _, nan => nan
  | inf a, inf b => inf (xor a b)
  | inf a, fin b m _ => if m = 0 then nan else inf (xor a b)
  | fin a m _, inf b => if m = 0 then nan else inf (xor a b)
  | fin a m₁ e₁, fin b m₂ e₂ => round (xor a b) (m₁ * m₂) (e₁ + e₂) false

/-- Quotient `x / y`. -/
def div : F64 → F64 → F64
  | nan, _ => nan
  | _, nan => nan
  | inf _, inf _ => nan
  | inf a, fin b _ _ => inf (xor a b)
  | fin a _ _, inf b => fin (xor a b) 0 0
  | fin a m₁ e₁, fin b m₂ e₂ =>
    if m₂ = 0 then (if m₁ = 0 then nan else inf (xor a b))
    else
      let k := bitLen m₂ + 64
      let n := m₁ * 2 ^ k
      round (xor a b) (n / m₂) (e₁ - e₂ - (k : Int)) (decide (n % m₂ ≠ 0))

/-- The integer `(-1)^neg * m`. -/
def signed (neg : Bool) (m : Nat) : Int :=
  if neg then -(m : Int) else (m : Int)

/-- Comparison `x < y`; false whenever an operand is NaN. -/
def lt : F64 → F64 → Bool
  | nan, _ => false
  | _, nan => false
  | inf a, inf b => a && !b
  | inf a, fin _ _ _ => a
  | fin _ _ _, inf b => !b
  | fin a m₁ e₁, fin b m₂ e₂ =>
    let e := min e₁ e₂
    decide (signed a m₁ * 2 ^ (e₁ - e).toNat < signed b m₂ * 2 ^ (e₂ - e).toNat)

/-- Comparison `x <= y`; false whenever an operand is NaN. -/
def le : F64 → F64 → Bool
  | nan, _ => false
  | _, nan => false
  | inf a, inf b => a || !b
  | inf a, fin _ _ _ => a
  | fin _ _ _, inf b => !b
  | fin a m₁ e₁, fin b m₂ e₂ =>
    let e := min e₁ e₂
    decide (signed a m₁ * 2 ^ (e₁ - e).toNat ≤ signed b m₂ * 2 ^ (e₂ - e).toNat)

/-- Conversion `int(x)`: truncation toward zero.  `none` when the value is
NaN, infinite or outside the 64-bit signed range, where Go leaves the result
to the implementation. -/
def toInt : F64 → Option Int
  | nan => none
  | inf _ => none
  | fin neg m e =>
    let mag : Nat := m * 2 ^ e.toNat / 2 ^ (-e).toNat
    let v := signed neg mag
    if -(2 : Int) ^ 63 ≤ v ∧ v < (2 : Int) ^ 63 then some v else none

/-- The rational number a finite value stands for (`0` for NaN and the
infinities, which have none). -/
def toRat : F64 → ℚ
  | nan => 0
  | inf _ => 0
  | fin neg m e => (signed neg m : ℚ) * (2 : ℚ) ^ e

/-- Formatting with the verb `%.<prec>f`: the exact value rounded to `prec`
decimals, ties to even. -/
def fmtFixed (prec : Nat) : F64 → String
  | nan => "NaN"
  | inf false => "+Inf"
  | inf true => "-Inf"
  | fin neg m e =>
    let t := roundHalfEven (m * 10 ^ prec * 2 ^ e.toNat) (2 ^ (-e).toNat) false
    let frac := Nat.repr (t % 10 ^ prec)
    (if neg then "-" else "") ++ Nat.repr (t / 10 ^ prec) ++
      (if prec = 0 then "" else
        "." ++ String.mk (List.replicate (prec - frac.length) '0') ++ frac)

end F64

/-! ## formatBytes -/

/-- Source: `formatBytes` (main.go:45-48). -/
def formatBytes (b : Nat) : String :=
  let gb := F64.div (F64.ofNat b) (F64.ofNat (1024 * 1024 * 1024))
  F64.fmtFixed 1 gb ++ " GB"


/-! ## Usage collector -/

/-- One monthly record of the `vnstat` JSON output. -/
structure MonthRecord where
  year : Int
  month : Int
  rx : Nat
  tx : Nat
deriving DecidableEq, Repr

/-- One interface entry of the `vnstat` JSON output. -/
structure Interface where
  name : String
  month : List MonthRecord
deriving DecidableEq, Repr

/-- Source: `VnstatOutput` (main.go:21-35). -/
structure VnstatOutput where
  interfaces : List Interface
deriving DecidableEq, Repr

/-- What `cmd.Output()` and `json.Unmarshal` hand to `getVnstatData`: the
process exited with an error, or it wrote bytes that `json.Unmarshal` either
rejects or decodes into a `VnstatOutput`. -/
inductive Subprocess where
  | exitError (err : String)
  | malformed
  | decoded (data : VnstatOutput)
deriving DecidableEq, Repr

/-- The four values `getVnstatData` returns next to a nil error. -/
structure UsageReport where
  iface : String
  rx : Nat
  tx : Nat
  date : String
deriving DecidableEq, Repr

/-- English month names of Go `time.Month`. -/
def longMonthNames : List String :=
  ["January", "February", "March", "April", "May", "June", "July", "August",
   "September", "October", "November", "December"]

/-- Go `time.Month(m).String()`. -/
def monthString (m : Int) : String :=
  if 1 ≤ m ∧ m ≤ 12 then longMonthNames.getD (m - 1).toNat ""
  else "%!Month(" ++ Nat.repr (m % 2 ^ 64).toNat ++ ")"

/-- Formatting of an `int` with the verb `%d`. -/
def fmtInt (i : Int) : String :=
  if i < 0 then "-" ++ Nat.repr i.natAbs else Nat.repr i.natAbs

/-- Source: `getVnstatData` (main.go:84-99), after the subprocess has run. -/
def getVnstatData : Subprocess → Outcome (Except String UsageReport)
  | .exitError err => .ok (.error err)
  | .malformed => .ok (.error "invalid vnstat output")
  | .decoded data =>
    match data.interfaces with
    | [] => .ok (.error "invalid vnstat output")
    | iface :: _ =>
      match iface.month with
      | [] => .panic
      | month :: _ =>
        let date := monthString month.month ++ " " ++ fmtInt month.year
        .ok (.ok ⟨iface.name, month.rx, month.tx, date⟩)

/-! ## Geolocation collector -/

/-- Source: `IPInfo` (main.go:37-43). -/
structure IPInfo where
  ip : String
  city : String
  region : String
  country : String
  org : String
deriving DecidableEq, Repr

/-- Go `net.IP.To4` on the bytes of an address. -/
def to4 (ip : List Nat) : Option (List Nat) :=
  if ip.length = 4 then some ip
  else if ip.length = 16 ∧ (ip.take 10).all (fun b => b == 0) ∧
      ip.get? 10 = some 255 ∧ ip.get? 11 = some 255 then some (ip.drop 12)
  else none

/-- Source: `getIPInfo` (main.go:50-82), after the HTTP exchange: `response` is
the request, transport or decoding error, or the decoded record; `parseIP` is
Go `net.ParseIP`, `none` standing for its nil result. -/
def getIPInfo (parseIP : String → Option (List Nat)) :
    Except String IPInfo → Except String IPInfo
  | .error err => .error err
  | .ok info =>
    match parseIP info.ip with
    | some ip => if to4 ip = none then .ok { info with ip := "" } else .ok info
    | none => .ok info

/-! ## Presentation formatter -/

/-- Go `unicode.ToUpper` on one rune: ASCII letters by the fixed rule, other
runes by the Unicode tables, the parameter `uni`. -/
def toUpperRune (uni : Char → Char) (c : Char) : Char :=
  if c.toNat < 128 then c.toUpper else uni c

/-- Go `strings.ToUpper`. -/
def stringsToUpper (uni : Char → Char) (s : String) : String :=
  String.mk (s.data.map (toUpperRune uni))

/-- Go `string(r)` for a rune: invalid code points become U+FFFD. -/
def runeToString (r : Nat) : String :=
  if r.isValidChar then String.singleton (Char.ofNat r) else String.singleton (Char.ofNat 65533)

/-- Source: `countryFlagEmoji` (main.go:117-124). -/
def countryFlagEmoji (uni : Char → Char) (code : String) : Outcome String :=
  if code.utf8ByteSize ≠ 2 then .ok ""
  else
    match (stringsToUpper uni code).data with
    | r0 :: r1 :: _ => .ok (runeToString (r0.toNat + 127397) ++ runeToString (r1.toNat + 127397))
    | _ => .panic

/-- Source: `getUsageEmoji` (main.go:126-135). -/
def getUsageEmoji (percent : F64) : String :=
  if F64.lt percent (F64.ofNat 50) then "🟢"
  else if F64.lt percent (F64.ofNat 80) then "🟡"
  else "🔴"

/-- Go `strings.Repeat`: panics on a negative count and when the result would
be longer than the largest `int`. -/
def stringsRepeat (s : String) (count : Int) : Outcome String :=
  if count < 0 then .panic
  else if 2 ^ 63 ≤ (s.utf8ByteSize : Int) * count then .panic
  else .ok (String.join (List.replicate count.toNat s))

/-- Source: `getProgressBar` (main.go:137-143).  The two `strings.Repeat`
calls run left to right, so the second is reached only with `0 ≤ filled ≤
width`, where `width - filled` cannot overflow. -/
def getProgressBar (percent : F64) (width : Int) : Outcome String :=
  match F64.toInt (F64.mul (F64.div percent (F64.ofNat 100)) (F64.ofInt width)) with
  | none => .implDependent
  | some n =>
    let filled := if n > width then width else n
    match stringsRepeat "█" filled with
    | .ok a =>
      match stringsRepeat "░" (width - filled) with
      | .ok b => .ok ("[" ++ a ++ b ++ "]")
      | _ => .panic
    | _ => .panic

/-! ## Orchestration -/

/-- Source: the `LIMIT_GIB` handling of `main` (main.go:157-163); `parseFloat`
is Go `strconv.ParseFloat`, `none` standing for a non-nil error. -/
def loadLimit (parseFloat : String → Option F64) (limitStr : String) : F64 :=
  if limitStr ≠ "" then
    match parseFloat limitStr with
    | some v => v
    | none => F64.ofNat 1024
  else F64.ofNat 1024

/-- Source: `percentUsed` in `main` (main.go:175-176). -/
def percentUsed (txBytes : Nat) (limitGiB : F64) : F64 :=
  let txGiB := F64.div (F64.ofNat txBytes) (F64.ofNat (1024 * 1024 * 1024))
  F64.mul (F64.div txGiB limitGiB) (F64.ofNat 100)

/-- Source: the `fmt.Sprintf` call of `main` (main.go:187-207). -/
def renderMessage (iface date : String) (rx tx : Nat) (limit percent : F64)
    (emoji bar : String) (info : IPInfo) (flag : String) : String :=
  "📊 VNSTAT  \nUsage on " ++
    iface ++
    " in " ++
    date ++
    ":\n\n⬇️ RX: " ++
    formatBytes rx ++
    "  \n⬆️ TX: " ++
    formatBytes tx ++
    " (limit: " ++
    F64.fmtFixed 0 limit ++
    " GiB)  \nTotal: " ++
    formatBytes ((rx + tx) % 2 ^ 64) ++
    "  \n\nTX Limit: " ++
    emoji ++
    " " ++
    F64.fmtFixed 2 percent ++
    "% used  \n" ++
    bar ++
    "  \n🌐 Public IP: " ++
    info.ip ++
    " " ++
    flag ++
    "\n📍 Location: " ++
    info.city ++
    ", " ++
    info.region ++
    "\n🏢 ISP: " ++
    info.org

/-- Source: `main` from the usage report to the composed message
(main.go:175-207). -/
def composeMessage (uni : Char → Char) (report : UsageReport) (limit : F64)
    (info : IPInfo) : Outcome String :=
  let percent := percentUsed report.tx limit
  match countryFlagEmoji uni (stringsToUpper uni info.country) with
  | .panic => .panic
  | .implDependent => .implDependent
  | .ok flag =>
    let emoji := getUsageEmoji percent
    match getProgressBar percent 20 with
    | .panic => .panic
    | .implDependent => .implDependent
    | .ok bar =>
      .ok (renderMessage report.iface report.date report.rx report.tx limit percent
        emoji bar info flag)

/-! ## Sign of a float64 value -/

/-- The value is a zero of either sign, a positive finite value or `+Inf`. -/
def F64.NonNeg : F64 → Prop
  | .nan => False
  | .inf neg => neg = false
  | .fin neg m _ => neg = false ∨ m = 0

/-- The value is a positive finite value or `+Inf`. -/
def F64.Pos : F64 → Prop
  | .nan => False
  | .inf neg => neg = false
  | .fin neg m _ => neg = false ∧ m ≠ 0

/-- The value is finite and its magnitude is below `2^k`. -/
def F64.Below (k : Int) : F64 → Prop
  | .nan => False
  | .inf _ => False
  | .fin _ m e => m = 0 ∨ (bitLen m : Int) + e ≤ k

/-! ## Values used to state the numeric properties -/

/-- The natural number that `float64(n)` stands for: `n` rounded to 53
significant bits, ties to even. -/
def float64Value (n : Nat) : Nat :=
  roundHalfEven n (2 ^ (bitLen n - 53)) false * 2 ^ (bitLen n - 53)

/-- The number of tenths that `formatBytes n` shows: `float64(n) / 2^30`
rounded to one decimal, ties to even. -/
def shownTenths (n : Nat) : Nat :=
  roundHalfEven (float64Value n * 10) (2 ^ 30) false

/-! ## The message template of the specification -/

/-- The twelve lines of the message template of the specification (§6,
"Message template"), with the placeholders replaced by the rendered values. -/
def specTemplateLines (iface period rxGB txGB limitN totalGB emoji percent bar ip flag
    city region org : String) : List String :=
  ["📊 VNSTAT",
   "Usage on " ++ iface ++ " in " ++ period ++ ":",
   "",
   "⬇️ RX: " ++ rxGB,
   "⬆️ TX: " ++ txGB ++ " (limit: " ++ limitN ++ " GiB)",
   "Total: " ++ totalGB,
   "",
   "TX Limit: " ++ emoji ++ " " ++ percent ++ "% used",
   bar,
   "🌐 Public IP: " ++ ip ++ " " ++ flag,
   "📍 Location: " ++ city ++ ", " ++ region,
   "🏢 ISP: " ++ org]

/-- The template of the specification as one text, its lines separated by
line breaks. -/
def specTemplateMessage (iface period rxGB txGB limitN totalGB emoji percent bar ip flag
    city region org : String) : String :=
  "\n".intercalate (specTemplateLines iface period rxGB txGB limitN totalGB emoji percent
    bar ip flag city region org)

/-- What the format string of `main` puts after each of the twelve template
lines before the line break: two spaces after lines 1, 4, 5, 6, 8 and 9. -/
def lineTrailers : List String :=
  ["  ", "", "", "  ", "  ", "  ", "", "  ", "  ", "", "", ""]

/-! ## Binary length -/

theorem bitLenAux_zero (fuel : Nat) : bitLenAux fuel 0 = 0 := by
  cases fuel <;> simp [bitLenAux]

theorem bitLenAux_spec (fuel : Nat) : ∀ n, n ≤ fuel →
    n < 2 ^ bitLenAux fuel n ∧ (n ≠ 0 → 2 ^ (bitLenAux fuel n - 1) ≤ n) := by
  induction fuel with
  | zero =>
    intro n hn
    have : n = 0 := by omega
    subst this
    simp [bitLenAux]
  | succ fuel ih =>
    intro n hn
    by_cases h0 : n = 0
    · subst h0
      simp [bitLenAux]
    · have hle : n / 2 ≤ fuel := by omega
      obtain ⟨h1, h2⟩ := ih (n / 2) hle
      simp only [bitLenAux, if_neg h0, Nat.add_sub_cancel]
      refine ⟨?_, fun _ => ?_⟩
      · rw [pow_succ]
        omega
      · by_cases hh : n / 2 = 0
        · rw [hh, bitLenAux_zero]
          simp
          omega
        · have h3 := h2 hh
          have hb : bitLenAux fuel (n / 2) ≠ 0 := by
            intro hb
            rw [hb] at h1
            simp at h1
            exact hh h1
          obtain ⟨b, hb'⟩ : ∃ b, bitLenAux fuel (n / 2) = b + 1 := ⟨_, (Nat.succ_pred hb).symm⟩
          rw [hb'] at h3 ⊢
          simp only [Nat.add_sub_cancel] at h3
          rw [pow_succ]
          omega

theorem lt_two_pow_bitLen (n : Nat) : n < 2 ^ bitLen n :=
  (bitLenAux_spec n n le_rfl).1

theorem two_pow_bitLen_le (n : Nat) (h : n ≠ 0) : 2 ^ (bitLen n - 1) ≤ n :=
  (bitLenAux_spec n n le_rfl).2 h

theorem bitLen_zero : bitLen 0 = 0 := bitLenAux_zero 0

theorem bitLen_le_of_lt (n k : Nat) (h : n < 2 ^ k) : bitLen n ≤ k := by
  by_cases h0 : n = 0
  · subst h0
    simp [bitLen_zero]
  · by_contra hc
    have h1 := two_pow_bitLen_le n h0
    have h2 : 2 ^ k ≤ 2 ^ (bitLen n - 1) := Nat.pow_le_pow_right (by norm_num) (by omega)
    omega

theorem lt_bitLen_of_le (n k : Nat) (h : 2 ^ k ≤ n) : k < bitLen n := by
  by_contra hc
  have h1 := lt_two_pow_bitLen n
  have h2 : 2 ^ bitLen n ≤ 2 ^ k := Nat.pow_le_pow_right (by norm_num) (by omega)
  omega

theorem bitLen_eq (n k : Nat) (h1 : 2 ^ k ≤ n) (h2 : n < 2 ^ (k + 1)) : bitLen n = k + 1 := by
  have := bitLen_le_of_lt n (k + 1) h2
  have := lt_bitLen_of_le n k h1
  omega

theorem bitLen_mul_pow (n k : Nat) (h : n ≠ 0) : bitLen (n * 2 ^ k) = bitLen n + k := by
  have h1 := two_pow_bitLen_le n h
  have h2 := lt_two_pow_bitLen n
  have hb : bitLen n ≠ 0 := by
    intro hb
    rw [hb] at h2
    simp at h2
    exact h h2
  obtain ⟨b, hb'⟩ : ∃ b, bitLen n = b + 1 := ⟨_, (Nat.succ_pred hb).symm⟩
  rw [hb'] at h1 h2 ⊢
  simp only [Nat.add_sub_cancel] at h1
  have e : b + 1 + k = (b + k) + 1 := by omega
  rw [e]
  apply bitLen_eq
  · rw [pow_add]
    exact Nat.mul_le_mul_right _ h1
  · rw [show b + k + 1 = (b + 1) + k by omega, pow_add]
    exact Nat.mul_lt_mul_of_pos_right h2 (by positivity)

theorem bitLen_mono (a b : Nat) (h : a ≤ b) : bitLen a ≤ bitLen b :=
  bitLen_le_of_lt a _ (lt_of_le_of_lt h (lt_two_pow_bitLen b))

/-! ## Rounding to the nearest integer -/

theorem roundHalfEven_floor_le (num den : Nat) (st : Bool) :
    num / den ≤ roundHalfEven num den st := by
  unfold roundHalfEven
  simp only
  split_ifs <;> omega

theorem roundHalfEven_le_succ (num den : Nat) (st : Bool) :
    roundHalfEven num den st ≤ num / den + 1 := by
  unfold roundHalfEven
  simp only
  split_ifs <;> omega

/-- The rounded value is within half a unit of the exact quotient. -/
theorem roundHalfEven_error (num den : Nat) (st : Bool) (hd : 0 < den) :
    2 * (roundHalfEven num den st * den) ≤ 2 * num + den ∧
    2 * num ≤ 2 * (roundHalfEven num den st * den) + den := by
  have h1 := Nat.div_add_mod num den
  have h2 := Nat.mod_lt num hd
  unfold roundHalfEven
  simp only
  split_ifs with h
  · rw [Nat.add_mul, Nat.mul_comm (num / den) den]
    generalize den * (num / den) = X at h1
    omega
  · rw [Nat.mul_comm (num / den) den]
    generalize den * (num / den) = X at h1
    omega

theorem roundHalfEven_mono (a b den : Nat) (h : a ≤ b) :
    roundHalfEven a den false ≤ roundHalfEven b den false := by
  have hq : a / den ≤ b / den := Nat.div_le_div_right h
  rcases Nat.lt_or_eq_of_le hq with hlt | heq
  · calc roundHalfEven a den false ≤ a / den + 1 := roundHalfEven_le_succ _ _ _
      _ ≤ b / den := hlt
      _ ≤ roundHalfEven b den false := roundHalfEven_floor_le _ _ _
  · have h1 := Nat.div_add_mod a den
    have h2 := Nat.div_add_mod b den
    rw [← heq] at h2
    have hr : a % den ≤ b % den := by
      generalize den * (a / den) = X at h1 h2
      omega
    unfold roundHalfEven
    simp only [Bool.false_eq_true, false_or]
    rw [← heq]
    split_ifs <;> omega

theorem roundHalfEven_exact (q den : Nat) (hd : 0 < den) :
    roundHalfEven (q * den) den false = q := by
  unfold roundHalfEven
  simp only [Nat.mul_mod_left, Nat.mul_div_cancel _ hd]
  rw [if_neg]
  rintro (h | ⟨h, _⟩) <;> omega

/-- The rounded value depends only on the fraction `num / den`. -/
theorem roundHalfEven_congr (n₁ d₁ n₂ d₂ : Nat) (st : Bool) (h₁ : 0 < d₁) (h₂ : 0 < d₂)
    (h : n₁ * d₂ = n₂ * d₁) : roundHalfEven n₁ d₁ st = roundHalfEven n₂ d₂ st := by
  have hq : n₁ / d₁ = n₂ / d₂ := by
    rw [← Nat.mul_div_mul_right n₁ d₁ h₂, ← Nat.mul_div_mul_right n₂ d₂ h₁, h, Nat.mul_comm d₁ d₂]
  have hr : n₁ % d₁ * d₂ = n₂ % d₂ * d₁ := by
    rw [← Nat.mul_mod_mul_right, ← Nat.mul_mod_mul_right, h, Nat.mul_comm d₁ d₂]
  have c1 : d₁ < 2 * (n₁ % d₁) ↔ d₂ < 2 * (n₂ % d₂) := by
    constructor
    · intro hh
      by_contra hc
      have : 2 * (n₂ % d₂) * d₁ ≤ d₂ * d₁ := Nat.mul_le_mul_right _ (by omega)
      have : d₁ * d₂ < 2 * (n₁ % d₁) * d₂ := Nat.mul_lt_mul_of_pos_right hh h₂
      nlinarith
    · intro hh
      by_contra hc
      have : 2 * (n₁ % d₁) * d₂ ≤ d₁ * d₂ := Nat.mul_le_mul_right _ (by omega)
      have : d₂ * d₁ < 2 * (n₂ % d₂) * d₁ := Nat.mul_lt_mul_of_pos_right hh h₁
      nlinarith
  have c2 : 2 * (n₁ % d₁) = d₁ ↔ 2 * (n₂ % d₂) = d₂ := by
    constructor
    · intro hh
      have : 2 * (n₂ % d₂) * d₁ = d₂ * d₁ := by nlinarith
      exact Nat.eq_of_mul_eq_mul_right h₁ this
    · intro hh
      have : 2 * (n₁ % d₁) * d₂ = d₁ * d₂ := by nlinarith
      exact Nat.eq_of_mul_eq_mul_right h₂ this
  unfold roundHalfEven
  simp only [hq, c1, c2]

/-! ## Exact cases of float64 rounding -/

theorem zpow_split (e : Int) :
    (2 : ℚ) ^ e = (2 : ℚ) ^ e.toNat / (2 : ℚ) ^ (-e).toNat := by
  rcases le_total 0 e with h | h
  · have h1 : (-e).toNat = 0 := by omega
    have h2 : e = (e.toNat : Int) := by omega
    rw [h1, pow_zero, div_one]
    conv_lhs => rw [h2]
    exact zpow_natCast 2 e.toNat
  · have h1 : e.toNat = 0 := by omega
    have h2 : e = -((-e).toNat : Int) := by omega
    rw [h1, pow_zero, one_div]
    conv_lhs => rw [h2]
    rw [zpow_neg, zpow_natCast]

/-- A value with at most 53 significant bits inside the exponent range is
kept as it is. -/
theorem round_exact (neg : Bool) (a t : Nat) (e : Int) (ha0 : a ≠ 0) (ha : bitLen a ≤ 53)
    (he : -1074 ≤ e + t) (hov : (bitLen a : Int) + t + e ≤ 1024) :
    ∃ q e', F64.round neg (a * 2 ^ t) e false = .fin neg q e' ∧ q ≠ 0 ∧
      (q : ℚ) * (2 : ℚ) ^ e' = (a : ℚ) * (2 : ℚ) ^ (e + t) := by
  have hM : bitLen (a * 2 ^ t) = bitLen a + t := bitLen_mul_pow a t ha0
  obtain ⟨s, hs⟩ : ∃ s : Nat,
      s = (max (e + ((bitLen a + t : Nat) : Int) - 53) (-1074) - e).toNat := ⟨_, rfl⟩
  have hst : s ≤ t := by omega
  obtain ⟨d, hd⟩ : ∃ d, t = s + d := ⟨t - s, by omega⟩
  have hMd : a * 2 ^ t = (a * 2 ^ d) * 2 ^ s := by
    rw [hd, pow_add]
    ring
  have hq : roundHalfEven (a * 2 ^ t) (2 ^ s) false = a * 2 ^ d := by
    rw [hMd]
    exact roundHalfEven_exact _ _ (by positivity)
  have hq0 : a * 2 ^ d ≠ 0 := Nat.mul_ne_zero ha0 (by positivity)
  have hbq : bitLen (a * 2 ^ d) = bitLen a + d := bitLen_mul_pow a d ha0
  refine ⟨a * 2 ^ d, e + s, ?_, hq0, ?_⟩
  · unfold F64.round
    simp only [hM, ← hs, hq, if_neg hq0, hbq]
    rw [if_neg]
    push_cast
    omega
  · push_cast
    rw [mul_assoc, ← zpow_natCast (2 : ℚ) d, ← zpow_add₀ (by norm_num : (2 : ℚ) ≠ 0)]
    congr 2
    omega

theorem round_zero (neg : Bool) (e : Int) : F64.round neg 0 e false = .fin neg 0 0 := by
  unfold F64.round
  simp [roundHalfEven]

/-! ## Decimal rendering -/

/-- One step of the digit loop of `Nat.repr` in base ten. -/
theorem toDigitsCore_step (f n : Nat) (ds : List Char) :
    Nat.toDigitsCore 10 (f + 1) n ds =
      if n / 10 = 0 then Nat.digitChar (n % 10) :: ds
      else Nat.toDigitsCore 10 f (n / 10) (Nat.digitChar (n % 10) :: ds) := rfl

/-- A number from 1000 to 9999 renders as its four decimal digits. -/
theorem repr_four_digits (y : Nat) (h1 : 1000 ≤ y) (h2 : y ≤ 9999) :
    Nat.repr y = String.mk [Nat.digitChar (y / 1000), Nat.digitChar (y / 100 % 10),
      Nat.digitChar (y / 10 % 10), Nat.digitChar (y % 10)] := by
  have e1 : ¬ (y / 10 = 0) := by omega
  have e2 : ¬ (y / 10 / 10 = 0) := by omega
  have e3 : ¬ (y / 10 / 10 / 10 = 0) := by omega
  have e4 : y / 10 / 10 / 10 / 10 = 0 := by omega
  have d2 : y / 10 / 10 = y / 100 := by omega
  have d3 : y / 10 / 10 / 10 = y / 1000 := by omega
  have m3 : y / 1000 % 10 = y / 1000 := by omega
  have hf : y + 1 = (y - 3) + 1 + 1 + 1 + 1 := by omega
  unfold Nat.repr Nat.toDigits
  rw [hf, toDigitsCore_step, if_neg e1, toDigitsCore_step, if_neg e2, toDigitsCore_step,
    if_neg e3, toDigitsCore_step, if_pos e4, d3, d2, m3]
  rfl

/-! ## Constants of the program as `float64` values -/

theorem ofNat_50 : F64.ofNat 50 = .fin false 50 0 := by decide

theorem ofNat_80 : F64.ofNat 80 = .fin false 80 0 := by decide

/-- The three branches of `getUsageEmoji` against the three ranges. -/
theorem getUsageEmoji_ranges (p : F64) :
    (F64.lt p (F64.ofNat 50) = true → getUsageEmoji p = "🟢") ∧
    (F64.le (F64.ofNat 50) p = true ∧ F64.lt p (F64.ofNat 80) = true →
      getUsageEmoji p = "🟡") ∧
    (F64.le (F64.ofNat 80) p = true → getUsageEmoji p = "🔴") ∧
    (p = F64.nan → getUsageEmoji p = "🔴") ∧
    (p ≠ F64.nan → (F64.lt p (F64.ofNat 50) = true ∨
      (F64.le (F64.ofNat 50) p = true ∧ F64.lt p (F64.ofNat 80) = true) ∨
      F64.le (F64.ofNat 80) p = true)) ∧
    ¬ (F64.lt p (F64.ofNat 50) = true ∧ F64.le (F64.ofNat 50) p = true) ∧
    ¬ (F64.lt p (F64.ofNat 50) = true ∧ F64.le (F64.ofNat 80) p = true) ∧
    ¬ (F64.lt p (F64.ofNat 80) = true ∧ F64.le (F64.ofNat 80) p = true) := by
  rw [ofNat_50, ofNat_80]
  cases p with
  | nan => simp [getUsageEmoji, F64.lt, F64.le, ofNat_50, ofNat_80]
  | inf neg => cases neg <;> simp [getUsageEmoji, F64.lt, F64.le, ofNat_50, ofNat_80]
  | fin neg m e =>
    have hY : (0 : Int) < 2 ^ (0 - min e 0).toNat := by positivity
    simp only [getUsageEmoji, F64.lt, F64.le, ofNat_50, ofNat_80, min_comm (0 : Int) e,
      decide_eq_true_eq, F64.signed, Bool.false_eq_true, if_false]
    generalize (2 : Int) ^ (0 - min e 0).toNat = Y at hY
    generalize (if neg = true then -(m : Int) else (m : Int)) * 2 ^ (e - min e 0).toNat = A
    by_cases h1 : A < 50 * Y
    · have h2 : A < 80 * Y := by omega
      simp [h1, h2]
    · by_cases h2 : A < 80 * Y
      · simp [h1, h2]
        omega
      · simp [h1, h2]
        omega

/-! ## formatBytes in closed form -/

theorem ofNat_fin (n : Nat) (h : n < 2 ^ 64) :
    F64.ofNat n = .fin false (roundHalfEven n (2 ^ (bitLen n - 53)) false)
      ((bitLen n - 53 : Nat) : Int) := by
  have hs : (max ((0 : Int) + (bitLen n : Int) - 53) (-1074) - 0).toNat = bitLen n - 53 := by
    omega
  have hb : bitLen n ≤ 64 := bitLen_le_of_lt n 64 h
  unfold F64.ofNat F64.round
  simp only [hs]
  by_cases hq : roundHalfEven n (2 ^ (bitLen n - 53)) false = 0
  · have hn : n / 2 ^ (bitLen n - 53) = 0 := by
      have := roundHalfEven_floor_le n (2 ^ (bitLen n - 53)) false
      rw [hq] at this
      exact Nat.eq_zero_of_le_zero this
    have hn0 : n = 0 := by
      by_contra hn0
      have h1 := two_pow_bitLen_le n hn0
      have h2 : 2 ^ (bitLen n - 53) ≤ 2 ^ (bitLen n - 1) :=
        Nat.pow_le_pow_right (by norm_num) (by omega)
      have h3 : 0 < n / 2 ^ (bitLen n - 53) :=
        Nat.div_pos (le_trans h2 h1) (by positivity)
      omega
    subst hn0
    have hz : roundHalfEven 0 1 false = 0 := by decide
    simp [bitLen_zero, hz]
  · have h1 : roundHalfEven n (2 ^ (bitLen n - 53)) false ≤ n + 1 :=
      le_trans (roundHalfEven_le_succ n (2 ^ (bitLen n - 53)) false)
        (Nat.succ_le_succ (Nat.div_le_self n (2 ^ (bitLen n - 53))))
    have h2 : bitLen (roundHalfEven n (2 ^ (bitLen n - 53)) false) ≤ 65 := by
      apply bitLen_le_of_lt
      have : (2 : Nat) ^ 65 = 2 ^ 64 + 2 ^ 64 := by norm_num
      omega
    have hov : ¬ (1024 < (bitLen (roundHalfEven n (2 ^ (bitLen n - 53)) false) : Int) +
        (0 + ((bitLen n - 53 : Nat) : Int))) := by
      omega
    rw [if_neg hq, if_neg hov, zero_add]

theorem float64_mantissa_le (n : Nat) :
    roundHalfEven n (2 ^ (bitLen n - 53)) false ≤ 2 ^ 53 := by
  have h1 := lt_two_pow_bitLen n
  have h2 : 2 ^ bitLen n ≤ 2 ^ 53 * 2 ^ (bitLen n - 53) := by
    rw [← pow_add]
    exact Nat.pow_le_pow_right (by norm_num) (by omega)
  have h3 : n / 2 ^ (bitLen n - 53) < 2 ^ 53 :=
    (Nat.div_lt_iff_lt_mul (by positivity)).2 (lt_of_lt_of_le h1 h2)
  have := roundHalfEven_le_succ n (2 ^ (bitLen n - 53)) false
  omega

theorem ofNat_gib : F64.ofNat (1024 * 1024 * 1024) = .fin false 1073741824 0 := by decide

/-- Dividing a converted integer by `2^30` is exact. -/
theorem div_gib_value (q s : Nat) (hq : q ≤ 2 ^ 53) (hs : s ≤ 64) :
    ∃ q' e', F64.div (.fin false q s) (.fin false 1073741824 0) = .fin false q' e' ∧
      (q' : ℚ) * (2 : ℚ) ^ e' = (q : ℚ) * 2 ^ s / 2 ^ 30 := by
  have hk : bitLen 1073741824 + 64 = 95 := by decide
  have hdiv : q * 2 ^ 95 / 1073741824 = q * 2 ^ 65 := by
    have : q * 2 ^ 95 = q * 2 ^ 65 * 1073741824 := by
      rw [mul_assoc]
      norm_num
    rw [this]
    exact Nat.mul_div_cancel _ (by norm_num)
  have hmod : q * 2 ^ 95 % 1073741824 = 0 := by
    have : q * 2 ^ 95 = q * 2 ^ 65 * 1073741824 := by
      rw [mul_assoc]
      norm_num
    rw [this]
    exact Nat.mul_mod_left _ _
  have hunf : F64.div (.fin false q s) (.fin false 1073741824 0) =
      F64.round false (q * 2 ^ 65) ((s : Int) - 95) false := by
    simp only [F64.div]
    rw [if_neg (by decide), hk, hdiv, hmod]
    simp
  rw [hunf]
  rcases Nat.eq_zero_or_pos q with h0 | h0
  · subst h0
    rw [Nat.zero_mul, round_zero]
    exact ⟨0, 0, rfl, by simp⟩
  rcases Nat.lt_or_eq_of_le hq with hlt | heq
  · obtain ⟨q', e', h1, _, h3⟩ := round_exact false q 65 ((s : Int) - 95) (by omega)
      (bitLen_le_of_lt q 53 hlt) (by omega)
      (by have := bitLen_le_of_lt q 53 hlt; omega)
    refine ⟨q', e', h1, ?_⟩
    rw [h3, mul_div_assoc]
    congr 1
    rw [show ((s : Int) - 95 + ((65 : Nat) : Int)) = (s : Int) - 30 by omega,
      zpow_sub₀ (by norm_num : (2 : ℚ) ≠ 0), zpow_natCast]
    norm_num
  · subst heq
    have hone : bitLen 1 = 1 := by decide
    obtain ⟨q', e', h1, _, h3⟩ := round_exact false 1 118 ((s : Int) - 95) (by omega)
      (by rw [hone]; omega) (by omega) (by rw [hone]; omega)
    have hM : 2 ^ 53 * 2 ^ 65 = 1 * 2 ^ 118 := by norm_num
    rw [hM]
    refine ⟨q', e', h1, ?_⟩
    rw [h3]
    rw [show ((s : Int) - 95 + ((118 : Nat) : Int)) = (s : Int) + 23 by omega,
      zpow_add₀ (by norm_num : (2 : ℚ) ≠ 0), zpow_natCast]
    push_cast
    norm_num
    ring

/-- Rounding the scaled value of a finite float depends on its value only. -/
theorem roundHalfEven_of_value (m : Nat) (e : Int) (N D c : Nat) (st : Bool) (hD : 0 < D)
    (h : (m : ℚ) * (2 : ℚ) ^ e = (N : ℚ) / D) :
    roundHalfEven (m * c * 2 ^ e.toNat) (2 ^ (-e).toNat) st = roundHalfEven (N * c) D st := by
  apply roundHalfEven_congr _ _ _ _ _ (by positivity) hD
  have hD' : (D : ℚ) ≠ 0 := by exact_mod_cast hD.ne'
  have hb : ((2 : ℚ) ^ (-e).toNat) ≠ 0 := by positivity
  rw [zpow_split, ← mul_div_assoc, div_eq_div_iff hb hD'] at h
  have : ((m * c * 2 ^ e.toNat * D : Nat) : ℚ) = ((N * c * 2 ^ (-e).toNat : Nat) : ℚ) := by
    push_cast
    linear_combination (c : ℚ) * h
  exact_mod_cast this

theorem repr_digit (d : Nat) (h : d < 10) : Nat.repr d = String.singleton (Nat.digitChar d) := by
  have e1 : d / 10 = 0 := by omega
  have e2 : d % 10 = d := by omega
  unfold Nat.repr Nat.toDigits
  rw [toDigitsCore_step, if_pos e1, e2]
  rfl

/-- For a 64-bit count, `formatBytes` prints the tenths `shownTenths n` with
one digit after the point. -/
theorem formatBytes_eq (n : Nat) (h : n < 2 ^ 64) :
    formatBytes n = Nat.repr (shownTenths n / 10) ++ "." ++
      String.singleton (Nat.digitChar (shownTenths n % 10)) ++ " GB" := by
  have hb : bitLen n - 53 ≤ 64 := by
    have := bitLen_le_of_lt n 64 h
    omega
  obtain ⟨q', e', hd, hv⟩ := div_gib_value _ _ (float64_mantissa_le n) hb
  have ht : roundHalfEven (q' * 10 * 2 ^ e'.toNat) (2 ^ (-e').toNat) false =
      shownTenths n := by
    unfold shownTenths float64Value
    apply roundHalfEven_of_value q' e' _ (2 ^ 30) 10 false (by positivity)
    rw [hv]
    push_cast
    rfl
  have hfrac : Nat.repr (shownTenths n % 10) =
      String.singleton (Nat.digitChar (shownTenths n % 10)) :=
    repr_digit _ (Nat.mod_lt _ (by norm_num))
  unfold formatBytes
  simp only [ofNat_gib, ofNat_fin n h, hd, F64.fmtFixed, pow_one, ht, hfrac]
  apply String.ext
  simp [String.data_append, String.singleton]

/-! ## Error and monotonicity of the shown value -/

theorem float64Value_exact (n : Nat) (h : n < 2 ^ 53) : float64Value n = n := by
  have hb : bitLen n - 53 = 0 := by
    have := bitLen_le_of_lt n 53 h
    omega
  unfold float64Value
  rw [hb, pow_zero, Nat.mul_one]
  have := roundHalfEven_exact n 1 (by norm_num)
  rwa [Nat.mul_one] at this

theorem float64Value_error (n : Nat) (h : n < 2 ^ 64) :
    float64Value n ≤ n + 2 ^ 10 ∧ n ≤ float64Value n + 2 ^ 10 := by
  have hb : bitLen n - 53 ≤ 11 := by
    have := bitLen_le_of_lt n 64 h
    omega
  have hp : 2 ^ (bitLen n - 53) ≤ 2 ^ 11 := Nat.pow_le_pow_right (by norm_num) hb
  obtain ⟨h1, h2⟩ := roundHalfEven_error n (2 ^ (bitLen n - 53)) false (by positivity)
  unfold float64Value
  generalize roundHalfEven n (2 ^ (bitLen n - 53)) false * 2 ^ (bitLen n - 53) = f at h1 h2
  generalize 2 ^ (bitLen n - 53) = p at hp h1 h2
  norm_num at hp ⊢
  omega

theorem float64Value_of_fin (n : Nat) (h : n < 2 ^ 64) :
    F64.toRat (F64.ofNat n) = (float64Value n : ℚ) := by
  rw [ofNat_fin n h]
  simp [F64.toRat, F64.signed, float64Value]

theorem float64Value_mono (a b : Nat) (h : a ≤ b) : float64Value a ≤ float64Value b := by
  have hs : bitLen a - 53 ≤ bitLen b - 53 := Nat.sub_le_sub_right (bitLen_mono a b h) 53
  rcases Nat.lt_or_eq_of_le hs with hlt | heq
  · have hb0 : b ≠ 0 := by
      rintro rfl
      rw [bitLen_zero] at hlt
      omega
    have h1 : float64Value a ≤ 2 ^ 53 * 2 ^ (bitLen a - 53) :=
      Nat.mul_le_mul_right _ (float64_mantissa_le a)
    have h2 : 2 ^ 53 * 2 ^ (bitLen a - 53) ≤ 2 ^ 52 * 2 ^ (bitLen b - 53) := by
      rw [← pow_add, ← pow_add]
      exact Nat.pow_le_pow_right (by norm_num) (by omega)
    have h3 : 2 ^ 52 * 2 ^ (bitLen b - 53) ≤ b := by
      have := two_pow_bitLen_le b hb0
      rw [← pow_add]
      have e : 52 + (bitLen b - 53) = bitLen b - 1 := by omega
      rw [e]
      exact this
    have h4 : 2 ^ 52 ≤ b / 2 ^ (bitLen b - 53) :=
      (Nat.le_div_iff_mul_le (by positivity)).2 h3
    have h5 : 2 ^ 52 * 2 ^ (bitLen b - 53) ≤ float64Value b :=
      Nat.mul_le_mul_right _ (le_trans h4 (roundHalfEven_floor_le _ _ _))
    exact le_trans h1 (le_trans h2 h5)
  · unfold float64Value
    rw [heq]
    exact Nat.mul_le_mul_right _ (roundHalfEven_mono a b _ h)

theorem shownTenths_mono (a b : Nat) (h : a ≤ b) : shownTenths a ≤ shownTenths b :=
  roundHalfEven_mono _ _ _ (Nat.mul_le_mul_right _ (float64Value_mono a b h))

theorem shownTenths_error (n : Nat) :
    |(shownTenths n : ℚ) / 10 - (float64Value n : ℚ) / 2 ^ 30| ≤ 1 / 20 := by
  obtain ⟨h1, h2⟩ := roundHalfEven_error (float64Value n * 10) (2 ^ 30) false (by positivity)
  have h1' : (2 : ℚ) * ((shownTenths n : ℚ) * 2 ^ 30) ≤ 2 * ((float64Value n : ℚ) * 10) + 2 ^ 30 := by
    exact_mod_cast h1
  have h2' : (2 : ℚ) * ((float64Value n : ℚ) * 10) ≤ 2 * ((shownTenths n : ℚ) * 2 ^ 30) + 2 ^ 30 := by
    exact_mod_cast h2
  rw [abs_le]
  constructor <;> norm_num at h1' h2' ⊢ <;> linarith

/-! ## Signs through the arithmetic -/

theorem ofNat_zero : F64.ofNat 0 = .fin false 0 0 := by decide

theorem le_zero_iff (x : F64) : F64.le (F64.ofNat 0) x = true ↔ x.NonNeg := by
  rw [ofNat_zero]
  cases x with
  | nan => simp [F64.le, F64.NonNeg]
  | inf neg => cases neg <;> simp [F64.le, F64.NonNeg]
  | fin neg m e =>
    have hp : (0 : Int) < 2 ^ (e - min 0 e).toNat := by positivity
    cases neg
    · simp only [F64.le, F64.NonNeg, F64.signed, decide_eq_true_eq, true_or, iff_true]
      simp only [Bool.false_eq_true, if_false, Nat.cast_zero, zero_mul]
      positivity
    · simp only [F64.le, F64.NonNeg, F64.signed, decide_eq_true_eq, if_true, Bool.true_eq_false,
        false_or]
      simp only [Bool.false_eq_true, if_false, Nat.cast_zero, zero_mul]
      constructor
      · intro h
        by_contra hm
        have hm' : (0 : Int) < (m : Int) := by omega
        have := mul_pos hm' hp
        linarith
      · intro h
        simp [h]

theorem round_nonneg (neg : Bool) (m : Nat) (e : Int) (st : Bool)
    (h : neg = false ∨ (m = 0 ∧ st = false)) : (F64.round neg m e st).NonNeg := by
  rcases h with h | ⟨hm, hst⟩
  · subst h
    unfold F64.round
    simp only
    split_ifs <;> simp [F64.NonNeg]
  · subst hm hst
    rw [round_zero]
    simp [F64.NonNeg]

theorem ofNat_nonneg (n : Nat) : (F64.ofNat n).NonNeg :=
  round_nonneg false n 0 false (Or.inl rfl)

theorem ofInt_nonneg (w : Int) (h : 0 ≤ w) : (F64.ofInt w).NonNeg := by
  unfold F64.ofInt
  have : decide (w < 0) = false := by simp [h]
  rw [this]
  exact round_nonneg false _ 0 false (Or.inl rfl)

theorem div_nonneg_pos (x y : F64) (hx : x.NonNeg) (hy : y.Pos)
    (hfin : (∃ a m e, x = .fin a m e) ∨ (∃ b m e, y = .fin b m e)) :
    (F64.div x y).NonNeg := by
  cases x with
  | nan => exact hx.elim
  | inf a =>
    cases y with
    | nan => exact hy.elim
    | inf b =>
      rcases hfin with ⟨_, _, _, h⟩ | ⟨_, _, _, h⟩ <;> cases h
    | fin b m e =>
      simp only [F64.NonNeg] at hx
      simp only [F64.Pos] at hy
      simp [F64.div, F64.NonNeg, hx, hy.1]
  | fin a m e =>
    cases y with
    | nan => exact hy.elim
    | inf b =>
      simp only [F64.Pos] at hy
      simp [F64.div, F64.NonNeg]
    | fin b m₂ e₂ =>
      simp only [F64.NonNeg] at hx
      simp only [F64.Pos] at hy
      obtain ⟨hb, hm₂⟩ := hy
      subst hb
      simp only [F64.div, if_neg hm₂, Bool.xor_false]
      apply round_nonneg
      rcases hx with hx | hx
      · exact Or.inl hx
      · right
        subst hx
        simp

theorem mul_nonneg_or_nan (x y : F64) (hx : x.NonNeg) (hy : y.NonNeg) :
    F64.mul x y = .nan ∨ (F64.mul x y).NonNeg := by
  cases x with
  | nan => exact hx.elim
  | inf a =>
    simp only [F64.NonNeg] at hx
    subst hx
    cases y with
    | nan => exact hy.elim
    | inf b =>
      simp only [F64.NonNeg] at hy
      subst hy
      right
      simp [F64.mul, F64.NonNeg]
    | fin b m e =>
      simp only [F64.NonNeg] at hy
      by_cases hm : m = 0
      · left
        simp [F64.mul, hm]
      · right
        have hb : b = false := by tauto
        simp [F64.mul, hm, hb, F64.NonNeg]
  | fin a m e =>
    simp only [F64.NonNeg] at hx
    cases y with
    | nan => exact hy.elim
    | inf b =>
      simp only [F64.NonNeg] at hy
      subst hy
      by_cases hm : m = 0
      · left
        simp [F64.mul, hm]
      · right
        have ha : a = false := by tauto
        simp [F64.mul, hm, ha, F64.NonNeg]
    | fin b m₂ e₂ =>
      simp only [F64.NonNeg] at hy
      right
      simp only [F64.mul]
      apply round_nonneg
      by_cases h0 : m * m₂ = 0
      · exact Or.inr ⟨h0, rfl⟩
      · left
        have h1 : m ≠ 0 := fun h => h0 (by simp [h])
        have h2 : m₂ ≠ 0 := fun h => h0 (by simp [h])
        have ha : a = false := by tauto
        have hb : b = false := by tauto
        simp [ha, hb]

theorem mul_nonneg_fin (x : F64) (m₂ : Nat) (e₂ : Int) (hx : x.NonNeg) (hm : m₂ ≠ 0) :
    (F64.mul x (.fin false m₂ e₂)).NonNeg := by
  rcases mul_nonneg_or_nan x (.fin false m₂ e₂) hx (Or.inl rfl) with h | h
  · cases x with
    | nan => exact hx.elim
    | inf a => simp [F64.mul, hm] at h
    | fin a m e =>
      simp only [F64.mul] at h
      have := round_nonneg (xor a false) (m * m₂) (e + e₂) false (by
        simp only [F64.NonNeg] at hx
        rcases hx with hx | hx
        · left
          simp [hx]
        · right
          simp [hx])
      rw [h] at this
      exact this.elim
  · exact h

/-- The integer conversion of a non-negative value is its floor. -/
theorem toInt_nonneg (x : F64) (n : Int) (hx : x.NonNeg) (h : F64.toInt x = some n) :
    0 ≤ n ∧ (n : ℚ) ≤ F64.toRat x ∧ F64.toRat x < (n : ℚ) + 1 := by
  cases x with
  | nan => exact hx.elim
  | inf a => simp [F64.toInt] at h
  | fin a m e =>
    simp only [F64.toInt] at h
    split_ifs at h with hr
    simp only [Option.some.injEq] at h
    have hB : 0 < 2 ^ (-e).toNat := by positivity
    have hdm := Nat.div_add_mod (m * 2 ^ e.toNat) (2 ^ (-e).toNat)
    have hlt := Nat.mod_lt (m * 2 ^ e.toNat) hB
    have hval : ((m : ℚ) * (2 : ℚ) ^ e) * ((2 ^ (-e).toNat : Nat) : ℚ) =
        ((m * 2 ^ e.toNat : Nat) : ℚ) := by
      rw [zpow_split]
      push_cast
      field_simp
    have hBq : (0 : ℚ) < ((2 ^ (-e).toNat : Nat) : ℚ) := by exact_mod_cast hB
    have hdm' : (((2 ^ (-e).toNat : Nat) : ℚ)) * ((m * 2 ^ e.toNat / 2 ^ (-e).toNat : Nat) : ℚ) +
        ((m * 2 ^ e.toNat % 2 ^ (-e).toNat : Nat) : ℚ) = ((m * 2 ^ e.toNat : Nat) : ℚ) := by
      exact_mod_cast hdm
    have hlt' : ((m * 2 ^ e.toNat % 2 ^ (-e).toNat : Nat) : ℚ) < ((2 ^ (-e).toNat : Nat) : ℚ) := by
      exact_mod_cast hlt
    have hnn : (0 : ℚ) ≤ ((m * 2 ^ e.toNat % 2 ^ (-e).toNat : Nat) : ℚ) := Nat.cast_nonneg _
    simp only [F64.NonNeg] at hx
    rcases hx with ha | hm
    · subst ha
      simp only [F64.signed, Bool.false_eq_true, if_false] at h
      subst h
      refine ⟨by positivity, ?_, ?_⟩
      · simp only [F64.toRat, F64.signed, Bool.false_eq_true, if_false, Int.cast_natCast]
        nlinarith
      · simp only [F64.toRat, F64.signed, Bool.false_eq_true, if_false, Int.cast_natCast]
        nlinarith
    · subst hm
      have : n = 0 := by
        rw [← h]
        simp [F64.signed]
      subst this
      simp [F64.toRat, F64.signed]

/-! ## The progress bar -/

theorem foldl_append_replicate (c : Char) (k : Nat) : ∀ acc : String,
    (List.replicate k (String.singleton c)).foldl (fun r s => r ++ s) acc =
      acc ++ String.mk (List.replicate k c) := by
  induction k with
  | zero =>
    intro acc
    apply String.ext
    simp [String.data_append]
  | succ k ih =>
    intro acc
    rw [List.replicate_succ, List.foldl_cons, ih]
    apply String.ext
    simp [String.data_append, String.singleton, List.replicate_succ]

theorem join_replicate (c : Char) (k : Nat) :
    String.join (List.replicate k (String.singleton c)) = String.mk (List.replicate k c) := by
  unfold String.join
  rw [foldl_append_replicate]
  apply String.ext
  simp [String.data_append]

theorem stringsRepeat_glyph (c : Char) (count : Int) (h0 : 0 ≤ count)
    (hlen : ((String.singleton c).utf8ByteSize : Int) * count < 2 ^ 63) :
    stringsRepeat (String.singleton c) count = .ok (String.mk (List.replicate count.toNat c)) := by
  unfold stringsRepeat
  rw [if_neg (by omega), if_neg (by omega), join_replicate]

theorem ofNat_100 : F64.ofNat 100 = .fin false 100 0 := by decide

/-- The product that `getProgressBar` converts is not negative when the
percentage and the width are not. -/
theorem bar_product_nonneg (percent : F64) (width : Int) (hp : percent.NonNeg)
    (hw : 0 ≤ width) :
    F64.mul (F64.div percent (F64.ofNat 100)) (F64.ofInt width) = .nan ∨
      (F64.mul (F64.div percent (F64.ofNat 100)) (F64.ofInt width)).NonNeg := by
  apply mul_nonneg_or_nan _ _ _ (ofInt_nonneg width hw)
  rw [ofNat_100]
  exact div_nonneg_pos _ _ hp ⟨rfl, by decide⟩ (Or.inr ⟨_, _, _, rfl⟩)

theorem getProgressBar_of_filled (percent : F64) (width n : Int)
    (hw : 0 ≤ width) (hlen : 3 * width < 2 ^ 63) (hn : 0 ≤ n)
    (hconv : F64.toInt (F64.mul (F64.div percent (F64.ofNat 100)) (F64.ofInt width)) = some n) :
    getProgressBar percent width = .ok ("[" ++
      String.mk (List.replicate (min n width).toNat '█') ++
      String.mk (List.replicate (width - min n width).toNat '░') ++ "]") := by
  have hfill : (if n > width then width else n) = min n width := by
    split_ifs with h
    · exact (min_eq_right (le_of_lt h)).symm
    · exact (min_eq_left (not_lt.1 h)).symm
  have h1 : (0 : Int) ≤ min n width := le_min hn hw
  have h2 : min n width ≤ width := min_le_right _ _
  have hb1 : ((String.singleton '█').utf8ByteSize : Int) = 3 := by decide
  have hb2 : ((String.singleton '░').utf8ByteSize : Int) = 3 := by decide
  have r1 := stringsRepeat_glyph '█' (min n width) h1 (by rw [hb1]; omega)
  have r2 := stringsRepeat_glyph '░' (width - min n width) (by omega) (by rw [hb2]; omega)
  have s1 : String.singleton '█' = "█" := by decide
  have s2 : String.singleton '░' = "░" := by decide
  rw [s1] at r1
  rw [s2] at r2
  unfold getProgressBar
  simp only [hconv, hfill, r1, r2]

/-! ## Magnitudes through the arithmetic -/

theorem roundHalfEven_one (m : Nat) (st : Bool) : roundHalfEven m 1 st = m := by
  unfold roundHalfEven
  simp only [Nat.div_one, Nat.mod_one]
  rw [if_neg]
  rintro (h | ⟨h, _⟩) <;> omega

theorem bitLen_roundHalfEven_le (m s : Nat) (st : Bool) :
    bitLen (roundHalfEven m (2 ^ s) st) ≤ (bitLen m - s) + 1 := by
  apply bitLen_le_of_lt
  have h1 := lt_two_pow_bitLen m
  have h2 : 2 ^ bitLen m ≤ 2 ^ (bitLen m - s) * 2 ^ s := by
    rw [← pow_add]
    exact Nat.pow_le_pow_right (by norm_num) (by omega)
  have h3 : m / 2 ^ s < 2 ^ (bitLen m - s) :=
    (Nat.div_lt_iff_lt_mul (by positivity)).2 (lt_of_lt_of_le h1 h2)
  have h4 := roundHalfEven_le_succ m (2 ^ s) st
  have h5 : 0 < 2 ^ (bitLen m - s) := by positivity
  rw [pow_succ]
  omega

/-- Rounding keeps a value below a power of two that its unrounded value is
below, up to one binary place. -/
theorem round_below (neg : Bool) (m : Nat) (e : Int) (st : Bool) (k : Int)
    (h : (bitLen m : Int) + e + 1 ≤ k) (hk : -1073 ≤ k) (hk2 : k ≤ 1024) :
    (F64.round neg m e st).Below k := by
  obtain ⟨s, hs⟩ : ∃ s : Nat, s = (max (e + (bitLen m : Int) - 53) (-1074) - e).toNat :=
    ⟨_, rfl⟩
  have hb := bitLen_roundHalfEven_le m s st
  have hsum : (bitLen (roundHalfEven m (2 ^ s) st) : Int) + (e + (s : Int)) ≤ k := by
    rcases Nat.eq_zero_or_pos s with h0 | h0
    · subst h0
      rw [pow_zero, roundHalfEven_one]
      omega
    · omega
  unfold F64.round
  simp only [← hs]
  split_ifs with h1 h2
  · simp [F64.Below]
  · omega
  · simp only [F64.Below]
    right
    exact hsum

theorem bitLen_mul_le (a b : Nat) : bitLen (a * b) ≤ bitLen a + bitLen b := by
  apply bitLen_le_of_lt
  rw [pow_add]
  exact Nat.mul_lt_mul'' (lt_two_pow_bitLen a) (lt_two_pow_bitLen b)

theorem ofNat_below (n : Nat) (h : n < 2 ^ 64) : (F64.ofNat n).Below 65 := by
  have := bitLen_le_of_lt n 64 h
  exact round_below false n 0 false 65 (by omega) (by norm_num) (by norm_num)

theorem mul_below (a b : Bool) (m₁ m₂ : Nat) (e₁ e₂ k₁ k₂ : Int)
    (h₁ : (F64.fin a m₁ e₁).Below k₁) (h₂ : (F64.fin b m₂ e₂).Below k₂)
    (hk : -1073 ≤ k₁ + k₂ + 1) (hk2 : k₁ + k₂ + 1 ≤ 1024) :
    (F64.mul (.fin a m₁ e₁) (.fin b m₂ e₂)).Below (k₁ + k₂ + 1) := by
  simp only [F64.Below] at h₁ h₂
  simp only [F64.mul]
  by_cases h0 : m₁ * m₂ = 0
  · rw [h0, round_zero]
    simp [F64.Below]
  · have hm₁ : m₁ ≠ 0 := fun h => h0 (by simp [h])
    have hm₂ : m₂ ≠ 0 := fun h => h0 (by simp [h])
    have := bitLen_mul_le m₁ m₂
    apply round_below _ _ _ _ _ _ hk hk2
    omega

theorem bitLen_div_le (n d : Nat) (hd : d ≠ 0) (hle : bitLen d ≤ bitLen n) :
    bitLen (n / d) + bitLen d ≤ bitLen n + 1 := by
  have h1 := two_pow_bitLen_le d hd
  have h2 := lt_two_pow_bitLen n
  have h3 : n / d ≤ n / 2 ^ (bitLen d - 1) := Nat.div_le_div_left h1 (by positivity)
  have h4 : 2 ^ bitLen n = 2 ^ (bitLen n - (bitLen d - 1)) * 2 ^ (bitLen d - 1) := by
    rw [← pow_add]
    congr 1
    omega
  have h5 : n / 2 ^ (bitLen d - 1) < 2 ^ (bitLen n - (bitLen d - 1)) :=
    (Nat.div_lt_iff_lt_mul (by positivity)).2 (by rw [← h4]; exact h2)
  have := bitLen_le_of_lt (n / d) _ (lt_of_le_of_lt h3 h5)
  omega

theorem div_below (a b : Bool) (m₁ m₂ : Nat) (e₁ e₂ k₁ l : Int)
    (h₁ : (F64.fin a m₁ e₁).Below k₁) (hm₂ : m₂ ≠ 0) (h₂ : l ≤ (bitLen m₂ : Int) + e₂)
    (hk : -1073 ≤ k₁ - l + 2) (hk2 : k₁ - l + 2 ≤ 1024) :
    (F64.div (.fin a m₁ e₁) (.fin b m₂ e₂)).Below (k₁ - l + 2) := by
  simp only [F64.Below] at h₁
  simp only [F64.div, if_neg hm₂]
  by_cases h0 : m₁ = 0
  · subst h0
    simp only [Nat.zero_mul, Nat.zero_div, Nat.zero_mod, ne_eq, not_true_eq_false, decide_False]
    rw [round_zero]
    simp [F64.Below]
  · have hb1 : bitLen m₁ ≠ 0 := by
      intro hb
      have := lt_two_pow_bitLen m₁
      rw [hb] at this
      omega
    have hq := bitLen_div_le (m₁ * 2 ^ (bitLen m₂ + 64)) m₂ hm₂
      (by rw [bitLen_mul_pow m₁ _ h0]; omega)
    rw [bitLen_mul_pow m₁ _ h0] at hq
    apply round_below _ _ _ _ _ _ hk hk2
    push_cast
    omega

theorem toInt_some (x : F64) (hx : x.NonNeg) (hb : x.Below 63) : ∃ n, F64.toInt x = some n := by
  cases x with
  | nan => exact hx.elim
  | inf a => exact hb.elim
  | fin a m e =>
    simp only [F64.Below] at hb
    simp only [F64.NonNeg] at hx
    have hmag : m * 2 ^ e.toNat / 2 ^ (-e).toNat < 2 ^ 63 := by
      rcases hb with hb | hb
      · subst hb
        simp
      · apply (Nat.div_lt_iff_lt_mul (by positivity)).2
        have h1 := lt_two_pow_bitLen m
        have h2 : m * 2 ^ e.toNat < 2 ^ bitLen m * 2 ^ e.toNat :=
          Nat.mul_lt_mul_of_pos_right h1 (by positivity)
        have h3 : 2 ^ bitLen m * 2 ^ e.toNat ≤ 2 ^ 63 * 2 ^ (-e).toNat := by
          rw [← pow_add, ← pow_add]
          exact Nat.pow_le_pow_right (by norm_num) (by omega)
        exact lt_of_lt_of_le h2 h3
    have hmag' : ((m * 2 ^ e.toNat / 2 ^ (-e).toNat : Nat) : Int) < 2 ^ 63 := by
      exact_mod_cast hmag
    simp only [F64.toInt]
    rw [if_pos]
    · exact ⟨_, rfl⟩
    · rcases hx with ha | hm
      · subst ha
        simp only [F64.signed, Bool.false_eq_true, if_false]
        constructor
        · have : (0 : Int) ≤ ((m * 2 ^ e.toNat / 2 ^ (-e).toNat : Nat) : Int) := Nat.cast_nonneg _
          omega
        · exact hmag'
      · subst hm
        simp [F64.signed]

/-! ## The percentage of the limit -/

theorem below_fin (x : F64) (k : Int) (h : x.Below k) : ∃ a m e, x = .fin a m e := by
  cases x with
  | nan => exact h.elim
  | inf a => exact h.elim
  | fin a m e => exact ⟨a, m, e, rfl⟩

theorem below_mono (x : F64) (k l : Int) (h : x.Below k) (hkl : k ≤ l) : x.Below l := by
  cases x with
  | nan => exact h.elim
  | inf a => exact h.elim
  | fin a m e =>
    simp only [F64.Below] at h ⊢
    omega

theorem lt_zero_iff (x : F64) : F64.lt (F64.ofNat 0) x = true ↔ x.Pos := by
  rw [ofNat_zero]
  cases x with
  | nan => simp [F64.lt, F64.Pos]
  | inf neg => cases neg <;> simp [F64.lt, F64.Pos]
  | fin neg m e =>
    have hp : (0 : Int) < 2 ^ (e - min 0 e).toNat := by positivity
    cases neg
    · simp only [F64.lt, F64.Pos, F64.signed, decide_eq_true_eq, Bool.false_eq_true, if_false,
        Nat.cast_zero, zero_mul, true_and]
      constructor
      · intro h hm
        subst hm
        simp at h
      · intro hm
        have hm' : (0 : Int) < (m : Int) := by omega
        exact mul_pos hm' hp
    · simp only [F64.lt, F64.Pos, F64.signed, decide_eq_true_eq, if_true, Bool.false_eq_true,
        if_false, Nat.cast_zero, zero_mul, Bool.true_eq_false, false_and, iff_false, not_lt]
      have : (0 : Int) ≤ (m : Int) * 2 ^ (e - min 0 e).toNat := by positivity
      linarith

theorem ofNat_one : F64.ofNat 1 = .fin false 1 0 := by decide

theorem one_le_fin (b : Bool) (m : Nat) (e : Int)
    (h : F64.le (F64.ofNat 1) (.fin b m e) = true) :
    b = false ∧ m ≠ 0 ∧ 1 ≤ (bitLen m : Int) + e := by
  rw [ofNat_one] at h
  simp only [F64.le, F64.signed, decide_eq_true_eq, Bool.false_eq_true, if_false,
    Nat.cast_one, one_mul] at h
  have hp1 : (0 : Int) < 2 ^ (0 - min 0 e).toNat := by positivity
  have hp2 : (0 : Int) < 2 ^ (e - min 0 e).toNat := by positivity
  have hb : b = false := by
    cases b
    · rfl
    · simp only [if_true] at h
      have : (0 : Int) ≤ (m : Int) * 2 ^ (e - min 0 e).toNat := by positivity
      linarith
  subst hb
  simp only [Bool.false_eq_true, if_false] at h
  have hm : m ≠ 0 := by
    rintro rfl
    simp only [Nat.cast_zero, zero_mul] at h
    linarith
  refine ⟨rfl, hm, ?_⟩
  by_contra hc
  have hlt := lt_two_pow_bitLen m
  have he : e < 0 := by
    have : bitLen m ≠ 0 := by
      intro hb
      rw [hb] at hlt
      omega
    omega
  have h1 : (0 - min 0 e).toNat = (-e).toNat := by omega
  have h2 : (e - min 0 e).toNat = 0 := by omega
  rw [h1, h2, pow_zero, mul_one] at h
  have h3 : (2 : Nat) ^ bitLen m ≤ 2 ^ (-e).toNat := Nat.pow_le_pow_right (by norm_num) (by omega)
  have h4 : ((2 : Nat) ^ (-e).toNat : Int) ≤ (m : Int) := by exact_mod_cast h
  have h5 : (2 : Nat) ^ (-e).toNat ≤ m := by exact_mod_cast h4
  omega

theorem txGiB_fin (tx : Nat) (h : tx < 2 ^ 64) :
    ∃ a m e, F64.div (F64.ofNat tx) (F64.ofNat (1024 * 1024 * 1024)) = .fin a m e ∧
      (F64.fin a m e).NonNeg ∧ (F64.fin a m e).Below 36 := by
  have hb := ofNat_below tx h
  have hn := ofNat_nonneg tx
  obtain ⟨a₀, m₀, e₀, h₀⟩ := below_fin _ _ hb
  rw [h₀] at hb hn
  have hl : (31 : Int) ≤ (bitLen 1073741824 : Int) + 0 := by decide
  have hd := div_below a₀ false m₀ 1073741824 e₀ 0 65 31 hb (by norm_num) hl (by norm_num)
    (by norm_num)
  have hnn := div_nonneg_pos (.fin a₀ m₀ e₀) (.fin false 1073741824 0) hn ⟨rfl, by norm_num⟩
    (Or.inl ⟨_, _, _, rfl⟩)
  norm_num at hd
  obtain ⟨a, m, e, hfin⟩ := below_fin _ _ hd
  rw [h₀, ofNat_gib]
  rw [hfin] at hd hnn
  exact ⟨a, m, e, hfin, hnn, hd⟩

theorem percentUsed_nonneg_of_pos (tx : Nat) (limit : F64) (h : tx < 2 ^ 64) (hl : limit.Pos) :
    (percentUsed tx limit).NonNeg := by
  obtain ⟨a, m, e, hfin, hnn, _⟩ := txGiB_fin tx h
  unfold percentUsed
  simp only [hfin, ofNat_100]
  exact mul_nonneg_fin _ 100 0 (div_nonneg_pos _ _ hnn hl (Or.inl ⟨_, _, _, rfl⟩)) (by norm_num)

theorem below_100 : (F64.fin false 100 0).Below 7 := by
  simp only [F64.Below]
  right
  decide

theorem percentUsed_below (tx : Nat) (limit : F64) (h : tx < 2 ^ 64)
    (hl : F64.le (F64.ofNat 1) limit = true) : (percentUsed tx limit).Below 45 := by
  obtain ⟨a, m, e, hfin, _, hb⟩ := txGiB_fin tx h
  unfold percentUsed
  simp only [hfin, ofNat_100]
  cases limit with
  | nan => simp [F64.le, ofNat_one] at hl
  | inf b =>
    simp only [F64.div, F64.mul, Nat.zero_mul, round_zero]
    simp [F64.Below]
  | fin b m₂ e₂ =>
    obtain ⟨_, hm₂, hge⟩ := one_le_fin b m₂ e₂ hl
    have hd := div_below a b m m₂ e e₂ 36 1 hb hm₂ hge (by norm_num) (by norm_num)
    norm_num at hd
    obtain ⟨a', m', e', hfin'⟩ := below_fin _ _ hd
    rw [hfin'] at hd ⊢
    have hm := mul_below a' false m' 100 e' 0 37 7 hd below_100 (by norm_num) (by norm_num)
    norm_num at hm
    exact hm

theorem ofInt_20 : F64.ofInt 20 = .fin false 20 0 := by decide

theorem bar_product_below (percent : F64) (hb : percent.Below 45) :
    (F64.mul (F64.div percent (F64.ofNat 100)) (F64.ofInt 20)).Below 63 := by
  obtain ⟨a, m, e, rfl⟩ := below_fin _ _ hb
  rw [ofNat_100, ofInt_20]
  have hl : (7 : Int) ≤ (bitLen 100 : Int) + 0 := by decide
  have hd := div_below a false m 100 e 0 45 7 hb (by norm_num) hl (by norm_num) (by norm_num)
  norm_num at hd
  obtain ⟨a', m', e', hfin'⟩ := below_fin _ _ hd
  rw [hfin'] at hd ⊢
  have h20 : (F64.fin false 20 0).Below 5 := by
    simp only [F64.Below]
    right
    decide
  have hm := mul_below a' false m' 20 e' 0 40 5 hd h20 (by norm_num) (by norm_num)
  norm_num at hm
  exact below_mono _ _ _ hm (by norm_num)

theorem pos_nonneg (x : F64) (h : x.Pos) : x.NonNeg := by
  cases x with
  | nan => exact h.elim
  | inf a => exact h
  | fin a m e => exact Or.inl h.1

theorem one_le_pos (x : F64) (h : F64.le (F64.ofNat 1) x = true) : x.Pos := by
  cases x with
  | nan => simp [F64.le, ofNat_one] at h
  | inf b =>
    simp only [F64.le, ofNat_one] at h
    simpa [F64.Pos] using h
  | fin b m e =>
    obtain ⟨hb, hm, _⟩ := one_le_fin b m e h
    exact ⟨hb, hm⟩

theorem loadLimit_default (parseFloat : String → Option F64) (limitStr : String)
    (h : limitStr = "" ∨ parseFloat limitStr = none) :
    loadLimit parseFloat limitStr = F64.ofNat 1024 := by
  unfold loadLimit
  rcases h with h | h
  · simp [h]
  · simp [h]

/-- With a non-negative product in range, the bar of width 20 is returned and
its filled count lies in 0..20. -/
theorem bar_of_conversion (percent : F64) (n : Int) (hp : percent.NonNeg)
    (hconv : F64.toInt (F64.mul (F64.div percent (F64.ofNat 100)) (F64.ofInt 20)) = some n) :
    0 ≤ min n 20 ∧ min n 20 ≤ 20 ∧
    getProgressBar percent 20 = .ok ("[" ++
      String.mk (List.replicate (min n 20).toNat '█') ++
      String.mk (List.replicate (20 - min n 20).toNat '░') ++ "]") := by
  rcases bar_product_nonneg percent 20 hp (by norm_num) with hnan | hnn
  · rw [hnan] at hconv
    simp [F64.toInt] at hconv
  · obtain ⟨h0, _, _⟩ := toInt_nonneg _ n hnn hconv
    exact ⟨le_min h0 (by norm_num), min_le_right _ _,
      getProgressBar_of_filled percent 20 n (by norm_num) (by norm_num) h0 hconv⟩

theorem bar_of_limit_ge_one (tx : Nat) (limit : F64) (h : tx < 2 ^ 64)
    (hl : F64.le (F64.ofNat 1) limit = true) :
    ∃ n, F64.toInt (F64.mul (F64.div (percentUsed tx limit) (F64.ofNat 100)) (F64.ofInt 20)) =
        some n ∧
      0 ≤ min n 20 ∧ min n 20 ≤ 20 ∧
      getProgressBar (percentUsed tx limit) 20 = .ok ("[" ++
        String.mk (List.replicate (min n 20).toNat '█') ++
        String.mk (List.replicate (20 - min n 20).toNat '░') ++ "]") := by
  have hp := percentUsed_nonneg_of_pos tx limit h (one_le_pos limit hl)
  have hb := bar_product_below _ (percentUsed_below tx limit h hl)
  rcases bar_product_nonneg (percentUsed tx limit) 20 hp (by norm_num) with hnan | hnn
  · rw [hnan] at hb
    exact hb.elim
  · obtain ⟨n, hn⟩ := toInt_some _ hnn hb
    exact ⟨n, hn, bar_of_conversion _ n hp hn⟩

/-! ## The composed message -/

/-- The text built by the format string of `main` is the specification's
template, line by line, with `lineTrailers` appended to the lines. -/
theorem renderMessage_eq (iface date : String) (rx tx : Nat) (limit percent : F64)
    (emoji bar : String) (info : IPInfo) (flag : String) :
    renderMessage iface date rx tx limit percent emoji bar info flag =
      "\n".intercalate (List.zipWith (fun l t => l ++ t)
        (specTemplateLines iface date (formatBytes rx) (formatBytes tx) (F64.fmtFixed 0 limit)
          (formatBytes ((rx + tx) % 2 ^ 64)) emoji (F64.fmtFixed 2 percent) bar info.ip flag
          info.city info.region info.org) lineTrailers) := by
  apply String.ext
  simp only [renderMessage, specTemplateLines, lineTrailers, List.zipWith, String.intercalate,
    String.intercalate.go, String.data_append, List.append_assoc, List.cons_append,
    List.nil_append, List.append_nil]

/-- When `main` composes a message, the flag and the bar were computed and
the message is the rendered format string. -/
theorem composeMessage_ok (uni : Char → Char) (report : UsageReport) (limit : F64)
    (info : IPInfo) (msg : String) (h : composeMessage uni report limit info = .ok msg) :
    ∃ flag bar,
      countryFlagEmoji uni (stringsToUpper uni info.country) = .ok flag ∧
      getProgressBar (percentUsed report.tx limit) 20 = .ok bar ∧
      msg = renderMessage report.iface report.date report.rx report.tx limit
        (percentUsed report.tx limit) (getUsageEmoji (percentUsed report.tx limit)) bar
        info flag := by
  unfold composeMessage at h
  cases hf : countryFlagEmoji uni (stringsToUpper uni info.country) with
  | panic => simp [hf] at h
  | implDependent => simp [hf] at h
  | ok flag =>
    cases hb : getProgressBar (percentUsed report.tx limit) 20 with
    | panic => simp [hf, hb] at h
    | implDependent => simp [hf, hb] at h
    | ok bar =>
      simp only [hf, hb, Outcome.ok.injEq] at h
      exact ⟨flag, bar, rfl, rfl, h.symm⟩

/-! ## Properties -/

/-- Claim C2 (code defect): when the decoded output has a first interface
whose list of monthly records is empty, `getVnstatData` neither returns an
error nor a report: indexing `Month[0]` panics. -/
theorem getVnstatData_empty_month_panics (name : String) (rest : List Interface) :
    getVnstatData (.decoded ⟨⟨name, []⟩ :: rest⟩) = .panic := rfl

/-- Claim C5 (code defect): `countryFlagEmoji` checks the byte length of the
code, not its number of characters; on the two-byte, one-character string "é"
it passes the check and panics on indexing the second rune, whatever the
Unicode upper-case table says. -/
theorem countryFlagEmoji_two_byte_rune_panics (uni : Char → Char) :
    countryFlagEmoji uni "é" = .panic := rfl

/-- Claim C7: for every decoded geolocation record, `getIPInfo` returns a
record with the same city, region, country and organization; its IP field is
the empty string when the received string parses as an address for which
`To4` is nil, and the received string in every other case. -/
theorem getIPInfo_frame (parseIP : String → Option (List Nat)) (info : IPInfo) :
    ∃ r, getIPInfo parseIP (.ok info) = .ok r ∧
      r.city = info.city ∧ r.region = info.region ∧ r.country = info.country ∧
      r.org = info.org ∧
      ((∃ ip, parseIP info.ip = some ip ∧ to4 ip = none) → r.ip = "") ∧
      ((¬ ∃ ip, parseIP info.ip = some ip ∧ to4 ip = none) → r.ip = info.ip) := by
  cases h : parseIP info.ip with
  | none => exact ⟨info, by simp [getIPInfo, h], rfl, rfl, rfl, rfl, by simp, by simp⟩
  | some ip =>
    by_cases h4 : to4 ip = none
    · exact ⟨{ info with ip := "" }, by simp [getIPInfo, h, h4], rfl, rfl, rfl, rfl,
        by simp [h4], by simp [h4]⟩
    · exact ⟨info, by simp [getIPInfo, h, h4], rfl, rfl, rfl, rfl, by simp [h4], by simp [h4]⟩

/-- Claim C3: when the interfaces list is non-empty and the first interface
has a first monthly record with month in 1..12 and year in 1000..9999,
`getVnstatData` returns the first interface's name, that record's rx and tx
unchanged, and the label made of the full English month name, one space and
the four decimal digits of the year. -/
theorem getVnstatData_first_record (name : String) (r : MonthRecord)
    (recs : List MonthRecord) (rest : List Interface)
    (hm : 1 ≤ r.month ∧ r.month ≤ 12) (hy : 1000 ≤ r.year ∧ r.year ≤ 9999) :
    ∃ monthName, longMonthNames.get? (r.month.toNat - 1) = some monthName ∧
      getVnstatData (.decoded ⟨⟨name, r :: recs⟩ :: rest⟩) =
        .ok (.ok ⟨name, r.rx, r.tx, monthName ++ " " ++
          String.mk [Nat.digitChar (r.year.toNat / 1000), Nat.digitChar (r.year.toNat / 100 % 10),
            Nat.digitChar (r.year.toNat / 10 % 10), Nat.digitChar (r.year.toNat % 10)]⟩) := by
  obtain ⟨year, month, rx, tx⟩ := r
  simp only at hm hy ⊢
  obtain ⟨y, rfl⟩ : ∃ y : Nat, year = (y : Int) := ⟨year.toNat, by omega⟩
  obtain ⟨m, rfl⟩ : ∃ m : Nat, month = (m : Int) := ⟨month.toNat, by omega⟩
  have hy1 : 1000 ≤ y := by omega
  have hy2 : y ≤ 9999 := by omega
  have hneg : ¬ ((y : Int) < 0) := by omega
  have hdate : fmtInt (y : Int) = Nat.repr y := by simp [fmtInt, hneg]
  have hm1 : 1 ≤ m := by omega
  have hm2 : m ≤ 12 := by omega
  simp only [getVnstatData, hdate, repr_four_digits y hy1 hy2, Int.toNat_ofNat]
  interval_cases m <;> exact ⟨_, rfl, rfl⟩

/-- Claim C3 at the specification's example: rx=500000000000,
tx=600000000000, year=2024, month=3 gives the label "March 2024". -/
theorem getVnstatData_first_record_witness :
    ((1 : Int) ≤ 3 ∧ (3 : Int) ≤ 12) ∧ ((1000 : Int) ≤ 2024 ∧ (2024 : Int) ≤ 9999) ∧
    getVnstatData (.decoded ⟨[⟨"eth0", [⟨2024, 3, 500000000000, 600000000000⟩]⟩]⟩) =
      .ok (.ok ⟨"eth0", 500000000000, 600000000000, "March 2024"⟩) := by
  refine ⟨by decide, by decide, ?_⟩
  obtain ⟨nm, h1, h2⟩ := getVnstatData_first_record "eth0" ⟨2024, 3, 500000000000, 600000000000⟩
    [] [] (by decide) (by decide)
  have h3 : nm = "March" := by
    have : longMonthNames.get? ((3 : Int).toNat - 1) = some "March" := by decide
    rw [this] at h1
    exact (Option.some.inj h1).symm
  rw [h2, h3]
  rfl

/-- Claim C8 as stated fails: NaN (reachable as 0/0 when the limit and the
transmitted bytes are both zero) is below 50 in no sense, between 50 and 80 in
no sense and at least 80 in no sense, so the three cases are not exhaustive;
the code's default branch answers red there. -/
theorem getUsageEmoji_nan_outside_ranges :
    getUsageEmoji F64.nan = "🔴" ∧
    ¬ (F64.lt F64.nan (F64.ofNat 50) = true ∨
      (F64.le (F64.ofNat 50) F64.nan = true ∧ F64.lt F64.nan (F64.ofNat 80) = true) ∨
      F64.le (F64.ofNat 80) F64.nan = true) := by
  decide

/-- Claim C8, amended: `getUsageEmoji` returns green when percent < 50,
yellow when 50 <= percent < 80 and red when percent >= 80; the three cases are
mutually exclusive, and exhaustive over every percent that is not NaN; on NaN
it returns red.  49.9 is green, 50.0 and 79.9 are yellow, 80.0 is red. -/
theorem getUsageEmoji_spec :
    (∀ p : F64,
      (F64.lt p (F64.ofNat 50) = true → getUsageEmoji p = "🟢") ∧
      (F64.le (F64.ofNat 50) p = true ∧ F64.lt p (F64.ofNat 80) = true →
        getUsageEmoji p = "🟡") ∧
      (F64.le (F64.ofNat 80) p = true → getUsageEmoji p = "🔴") ∧
      (p = F64.nan → getUsageEmoji p = "🔴") ∧
      (p ≠ F64.nan → (F64.lt p (F64.ofNat 50) = true ∨
        (F64.le (F64.ofNat 50) p = true ∧ F64.lt p (F64.ofNat 80) = true) ∨
        F64.le (F64.ofNat 80) p = true)) ∧
      ¬ (F64.lt p (F64.ofNat 50) = true ∧ F64.le (F64.ofNat 50) p = true) ∧
      ¬ (F64.lt p (F64.ofNat 50) = true ∧ F64.le (F64.ofNat 80) p = true) ∧
      ¬ (F64.lt p (F64.ofNat 80) = true ∧ F64.le (F64.ofNat 80) p = true)) ∧
    getUsageEmoji (F64.div (F64.ofNat 499) (F64.ofNat 10)) = "🟢" ∧
    getUsageEmoji (F64.ofNat 50) = "🟡" ∧
    getUsageEmoji (F64.div (F64.ofNat 799) (F64.ofNat 10)) = "🟡" ∧
    getUsageEmoji (F64.ofNat 80) = "🔴" := by
  refine ⟨getUsageEmoji_ranges, ?_, ?_, ?_, ?_⟩ <;> decide

set_option maxRecDepth 8000 in
/-- Claim C1 as stated fails: for the report (eth0, March 2024,
rx=500000000000, tx=600000000000), limit 1024 and a location record, the text
`main` composes differs from the specification's template with the computed
values substituted: six of its lines carry two spaces before the line break. -/
theorem composeMessage_not_template :
    composeMessage id ⟨"eth0", 500000000000, 600000000000, "March 2024"⟩ (F64.ofNat 1024)
      ⟨"203.0.113.7", "Berlin", "Berlin", "DE", "AS64500 Example"⟩ =
      .ok "📊 VNSTAT  \nUsage on eth0 in March 2024:\n\n⬇️ RX: 465.7 GB  \n⬆️ TX: 558.8 GB (limit: 1024 GiB)  \nTotal: 1024.5 GB  \n\nTX Limit: 🟡 54.57% used  \n[██████████░░░░░░░░░░]  \n🌐 Public IP: 203.0.113.7 🇩🇪\n📍 Location: Berlin, Berlin\n🏢 ISP: AS64500 Example" ∧
    "📊 VNSTAT  \nUsage on eth0 in March 2024:\n\n⬇️ RX: 465.7 GB  \n⬆️ TX: 558.8 GB (limit: 1024 GiB)  \nTotal: 1024.5 GB  \n\nTX Limit: 🟡 54.57% used  \n[██████████░░░░░░░░░░]  \n🌐 Public IP: 203.0.113.7 🇩🇪\n📍 Location: Berlin, Berlin\n🏢 ISP: AS64500 Example" ≠
      specTemplateMessage "eth0" "March 2024" (formatBytes 500000000000)
        (formatBytes 600000000000) (F64.fmtFixed 0 (F64.ofNat 1024))
        (formatBytes ((500000000000 + 600000000000) % 2 ^ 64))
        (getUsageEmoji (percentUsed 600000000000 (F64.ofNat 1024)))
        (F64.fmtFixed 2 (percentUsed 600000000000 (F64.ofNat 1024)))
        "[██████████░░░░░░░░░░]" "203.0.113.7" "🇩🇪" "Berlin" "Berlin" "AS64500 Example" := by
  constructor
  · rfl
  · decide

/-- Claim C1, amended: whenever `main` composes a message, its text is the
twelve lines of the specification's template in the same order with the
computed values substituted, where lines 1, 4, 5, 6, 8 and 9 are followed by
two space characters before the line break and the other lines by nothing. -/
theorem composeMessage_template (uni : Char → Char) (report : UsageReport) (limit : F64)
    (info : IPInfo) (msg : String) (h : composeMessage uni report limit info = .ok msg) :
    ∃ flag bar,
      countryFlagEmoji uni (stringsToUpper uni info.country) = .ok flag ∧
      getProgressBar (percentUsed report.tx limit) 20 = .ok bar ∧
      msg = "\n".intercalate (List.zipWith (fun l t => l ++ t)
        (specTemplateLines report.iface report.date (formatBytes report.rx)
          (formatBytes report.tx) (F64.fmtFixed 0 limit)
          (formatBytes ((report.rx + report.tx) % 2 ^ 64))
          (getUsageEmoji (percentUsed report.tx limit))
          (F64.fmtFixed 2 (percentUsed report.tx limit)) bar info.ip flag
          info.city info.region info.org)
        ["  ", "", "", "  ", "  ", "  ", "", "  ", "  ", "", "", ""]) := by
  obtain ⟨flag, bar, hf, hb, hm⟩ := composeMessage_ok uni report limit info msg h
  exact ⟨flag, bar, hf, hb, by rw [hm, renderMessage_eq]; rfl⟩

set_option maxRecDepth 8000 in
/-- Claim C1, amended, at a concrete run. -/
theorem composeMessage_template_witness :
    composeMessage id ⟨"eth0", 500000000000, 600000000000, "March 2024"⟩ (F64.ofNat 1024)
      ⟨"203.0.113.7", "Berlin", "Berlin", "DE", "AS64500 Example"⟩ =
      .ok "📊 VNSTAT  \nUsage on eth0 in March 2024:\n\n⬇️ RX: 465.7 GB  \n⬆️ TX: 558.8 GB (limit: 1024 GiB)  \nTotal: 1024.5 GB  \n\nTX Limit: 🟡 54.57% used  \n[██████████░░░░░░░░░░]  \n🌐 Public IP: 203.0.113.7 🇩🇪\n📍 Location: Berlin, Berlin\n🏢 ISP: AS64500 Example" ∧
    ∃ flag bar,
      countryFlagEmoji id (stringsToUpper id "DE") = .ok flag ∧
      getProgressBar (percentUsed 600000000000 (F64.ofNat 1024)) 20 = .ok bar ∧
      "📊 VNSTAT  \nUsage on eth0 in March 2024:\n\n⬇️ RX: 465.7 GB  \n⬆️ TX: 558.8 GB (limit: 1024 GiB)  \nTotal: 1024.5 GB  \n\nTX Limit: 🟡 54.57% used  \n[██████████░░░░░░░░░░]  \n🌐 Public IP: 203.0.113.7 🇩🇪\n📍 Location: Berlin, Berlin\n🏢 ISP: AS64500 Example" =
        "\n".intercalate (List.zipWith (fun l t => l ++ t)
          (specTemplateLines "eth0" "March 2024" (formatBytes 500000000000)
            (formatBytes 600000000000) (F64.fmtFixed 0 (F64.ofNat 1024))
            (formatBytes ((500000000000 + 600000000000) % 2 ^ 64))
            (getUsageEmoji (percentUsed 600000000000 (F64.ofNat 1024)))
            (F64.fmtFixed 2 (percentUsed 600000000000 (F64.ofNat 1024))) bar "203.0.113.7" flag
            "Berlin" "Berlin" "AS64500 Example")
          ["  ", "", "", "  ", "  ", "  ", "", "  ", "  ", "", "", ""]) :=
  ⟨by rfl, composeMessage_template id ⟨"eth0", 500000000000, 600000000000, "March 2024"⟩ (F64.ofNat 1024)
      ⟨"203.0.113.7", "Berlin", "Berlin", "DE", "AS64500 Example"⟩
    "📊 VNSTAT  \nUsage on eth0 in March 2024:\n\n⬇️ RX: 465.7 GB  \n⬆️ TX: 558.8 GB (limit: 1024 GiB)  \nTotal: 1024.5 GB  \n\nTX Limit: 🟡 54.57% used  \n[██████████░░░░░░░░░░]  \n🌐 Public IP: 203.0.113.7 🇩🇪\n📍 Location: Berlin, Berlin\n🏢 ISP: AS64500 Example" (by rfl)⟩

set_option maxRecDepth 8000 in
/-- Claim C6 as stated fails: for n = 2^53 + 2^28 + 1 = 9007199523176449 the
conversion `float64(n)` rounds n down by one, the quotient by 2^30 is exactly
8388608.25 and is printed as "8388608.2 GB" (tie to even), while n / 2^30 is
above 8388608.25: the printed numeral is more than 0.05 away from n / 2^30
and is not its nearest tenth, 8388608.3. -/
theorem formatBytes_not_nearest_tenth :
    formatBytes 9007199523176449 = "8388608.2 GB" ∧
    (1 / 20 : ℚ) < |(83886082 : ℚ) / 10 - (9007199523176449 : ℚ) / 2 ^ 30| ∧
    |(83886083 : ℚ) / 10 - (9007199523176449 : ℚ) / 2 ^ 30| < 1 / 20 := by
  refine ⟨by rfl, ?_, ?_⟩
  · rw [lt_abs]
    right
    norm_num
  · rw [abs_lt]
    constructor <;> norm_num

/-- Claim C6, amended: for every unsigned 64-bit count n, `formatBytes n` is
a decimal numeral with exactly one digit after the point followed by " GB";
the numeral is `float64(n) / 2^30` rounded to the nearest tenth (ties to
even), so it differs from `float64(n) / 2^30` by at most 0.05, from n / 2^30
by at most 0.05 + 2^-20, and from n / 2^30 by at most 0.05 when n < 2^53,
where `float64(n)` is n itself. -/
theorem formatBytes_spec (n : Nat) (h : n < 2 ^ 64) :
    formatBytes n = Nat.repr (shownTenths n / 10) ++ "." ++
      String.singleton (Nat.digitChar (shownTenths n % 10)) ++ " GB" ∧
    F64.toRat (F64.ofNat n) = (float64Value n : ℚ) ∧
    |(shownTenths n : ℚ) / 10 - (float64Value n : ℚ) / 2 ^ 30| ≤ 1 / 20 ∧
    |(shownTenths n : ℚ) / 10 - (n : ℚ) / 2 ^ 30| ≤ 1 / 20 + 1 / 2 ^ 20 ∧
    (n < 2 ^ 53 → float64Value n = n ∧
      |(shownTenths n : ℚ) / 10 - (n : ℚ) / 2 ^ 30| ≤ 1 / 20) := by
  have herr := shownTenths_error n
  refine ⟨formatBytes_eq n h, float64Value_of_fin n h, herr, ?_, ?_⟩
  · obtain ⟨h1, h2⟩ := float64Value_error n h
    have h1' : (float64Value n : ℚ) ≤ (n : ℚ) + 2 ^ 10 := by exact_mod_cast h1
    have h2' : (n : ℚ) ≤ (float64Value n : ℚ) + 2 ^ 10 := by exact_mod_cast h2
    rw [abs_le] at herr ⊢
    obtain ⟨e1, e2⟩ := herr
    constructor <;> norm_num at e1 e2 h1' h2' ⊢ <;> linarith
  · intro hn
    have hx := float64Value_exact n hn
    refine ⟨hx, ?_⟩
    rw [hx] at herr
    exact herr

set_option maxRecDepth 8000 in
/-- Claim C6, amended, at the specification's examples: one GiB prints as
"1.0 GB" and zero as "0.0 GB". -/
theorem formatBytes_spec_witness :
    (1073741824 < 2 ^ 64 ∧ (1073741824 : Nat) < 2 ^ 53) ∧
    formatBytes 1073741824 = "1.0 GB" ∧ formatBytes 0 = "0.0 GB" ∧
    float64Value 1073741824 = 1073741824 ∧
    |(shownTenths 1073741824 : ℚ) / 10 - ((1073741824 : Nat) : ℚ) / 2 ^ 30| ≤ 1 / 20 :=
  ⟨by norm_num, by rfl, by rfl,
    (formatBytes_spec 1073741824 (by norm_num)).2.2.2.2 (by norm_num)⟩

set_option maxRecDepth 8000 in
/-- Claim C9 as stated fails: for rxBytes = txBytes = 2^63 the sum wraps to
zero in `uint64`, so the message shows RX and TX as 8589934592.0 GB and the
total as 0.0 GB, smaller than both. -/
theorem total_wraps_around :
    composeMessage id ⟨"eth0", 9223372036854775808, 9223372036854775808, "March 2024"⟩
      (F64.ofNat 1024) ⟨"203.0.113.7", "Berlin", "Berlin", "DE", "AS64500 Example"⟩ =
      .ok "📊 VNSTAT  \nUsage on eth0 in March 2024:\n\n⬇️ RX: 8589934592.0 GB  \n⬆️ TX: 8589934592.0 GB (limit: 1024 GiB)  \nTotal: 0.0 GB  \n\nTX Limit: 🔴 838860800.00% used  \n[████████████████████]  \n🌐 Public IP: 203.0.113.7 🇩🇪\n📍 Location: Berlin, Berlin\n🏢 ISP: AS64500 Example" ∧
    formatBytes ((9223372036854775808 + 9223372036854775808) % 2 ^ 64) = "0.0 GB" ∧
    formatBytes (9223372036854775808 + 9223372036854775808) = "17179869184.0 GB" ∧
    shownTenths ((9223372036854775808 + 9223372036854775808) % 2 ^ 64) <
      shownTenths 9223372036854775808 := by
  refine ⟨by rfl, by rfl, by rfl, by decide⟩

/-- Claim C9, amended: for unsigned 64-bit counts rxBytes and txBytes, the
value on the "Total:" line of a composed message is `formatBytes` of the
`uint64` sum, (rxBytes + txBytes) mod 2^64; whenever rxBytes + txBytes < 2^64
this is `formatBytes` of the arithmetic sum, and the tenths shown for the
total are not fewer than those shown for RX or for TX. -/
theorem total_line (uni : Char → Char) (report : UsageReport) (limit : F64)
    (info : IPInfo) (msg : String) (h : composeMessage uni report limit info = .ok msg)
    (hrx : report.rx < 2 ^ 64) (htx : report.tx < 2 ^ 64) :
    (∃ flag bar, msg = "\n".intercalate (List.zipWith (fun l t => l ++ t)
        (specTemplateLines report.iface report.date (formatBytes report.rx)
          (formatBytes report.tx) (F64.fmtFixed 0 limit)
          (formatBytes ((report.rx + report.tx) % 2 ^ 64))
          (getUsageEmoji (percentUsed report.tx limit))
          (F64.fmtFixed 2 (percentUsed report.tx limit)) bar info.ip flag
          info.city info.region info.org)
        ["  ", "", "", "  ", "  ", "  ", "", "  ", "  ", "", "", ""])) ∧
    formatBytes report.rx = Nat.repr (shownTenths report.rx / 10) ++ "." ++
      String.singleton (Nat.digitChar (shownTenths report.rx % 10)) ++ " GB" ∧
    formatBytes report.tx = Nat.repr (shownTenths report.tx / 10) ++ "." ++
      String.singleton (Nat.digitChar (shownTenths report.tx % 10)) ++ " GB" ∧
    formatBytes ((report.rx + report.tx) % 2 ^ 64) =
      Nat.repr (shownTenths ((report.rx + report.tx) % 2 ^ 64) / 10) ++ "." ++
      String.singleton (Nat.digitChar (shownTenths ((report.rx + report.tx) % 2 ^ 64) % 10)) ++
      " GB" ∧
    (report.rx + report.tx < 2 ^ 64 →
      (report.rx + report.tx) % 2 ^ 64 = report.rx + report.tx ∧
      shownTenths report.rx ≤ shownTenths ((report.rx + report.tx) % 2 ^ 64) ∧
      shownTenths report.tx ≤ shownTenths ((report.rx + report.tx) % 2 ^ 64)) := by
  obtain ⟨flag, bar, _, _, hm⟩ := composeMessage_ok uni report limit info msg h
  refine ⟨⟨flag, bar, by rw [hm, renderMessage_eq]; rfl⟩, formatBytes_eq _ hrx,
    formatBytes_eq _ htx, formatBytes_eq _ (Nat.mod_lt _ (by norm_num)), ?_⟩
  intro hsum
  rw [Nat.mod_eq_of_lt hsum]
  exact ⟨rfl, shownTenths_mono _ _ (Nat.le_add_right _ _),
    shownTenths_mono _ _ (Nat.le_add_left _ _)⟩

set_option maxRecDepth 8000 in
/-- Claim C9, amended, at the run with rx=500000000000 and tx=600000000000:
RX shows 465.7, TX 558.8 and the total 1024.5. -/
theorem total_line_witness :
    composeMessage id ⟨"eth0", 500000000000, 600000000000, "March 2024"⟩ (F64.ofNat 1024)
      ⟨"203.0.113.7", "Berlin", "Berlin", "DE", "AS64500 Example"⟩ =
      .ok "📊 VNSTAT  \nUsage on eth0 in March 2024:\n\n⬇️ RX: 465.7 GB  \n⬆️ TX: 558.8 GB (limit: 1024 GiB)  \nTotal: 1024.5 GB  \n\nTX Limit: 🟡 54.57% used  \n[██████████░░░░░░░░░░]  \n🌐 Public IP: 203.0.113.7 🇩🇪\n📍 Location: Berlin, Berlin\n🏢 ISP: AS64500 Example" ∧
    (500000000000 < 2 ^ 64 ∧ 600000000000 < 2 ^ 64 ∧ 500000000000 + 600000000000 < 2 ^ 64) ∧
    shownTenths 500000000000 ≤ shownTenths ((500000000000 + 600000000000) % 2 ^ 64) ∧
    shownTenths 600000000000 ≤ shownTenths ((500000000000 + 600000000000) % 2 ^ 64) :=
  ⟨by rfl, by norm_num,
    ((total_line id ⟨"eth0", 500000000000, 600000000000, "March 2024"⟩ (F64.ofNat 1024)
      ⟨"203.0.113.7", "Berlin", "Berlin", "DE", "AS64500 Example"⟩
      "📊 VNSTAT  \nUsage on eth0 in March 2024:\n\n⬇️ RX: 465.7 GB  \n⬆️ TX: 558.8 GB (limit: 1024 GiB)  \nTotal: 1024.5 GB  \n\nTX Limit: 🟡 54.57% used  \n[██████████░░░░░░░░░░]  \n🌐 Public IP: 203.0.113.7 🇩🇪\n📍 Location: Berlin, Berlin\n🏢 ISP: AS64500 Example" (by rfl)
      (by norm_num) (by norm_num)).2.2.2.2 (by norm_num)).2⟩

set_option maxRecDepth 8000 in
/-- Claim C4 as stated fails: for the non-negative percentages `+Inf` (which
`main` computes when the limit is zero) and 10^20, the product
percent / 100 * 20 is outside the range of `int`, the conversion `int(...)`
has no result fixed by the language (on amd64 it is the least integer and
`strings.Repeat` panics), and `getProgressBar` is not bound to return the
bracketed bar of 20 glyphs. -/
theorem getProgressBar_out_of_range :
    F64.le (F64.ofNat 0) (.inf false) = true ∧
    getProgressBar (.inf false) 20 = .implDependent ∧
    F64.le (F64.ofNat 0) (F64.ofNat (10 ^ 20)) = true ∧
    getProgressBar (F64.ofNat (10 ^ 20)) 20 = .implDependent := by
  decide

/-- Claim C4, amended: for every percent >= 0 and every width >= 0 with
3 * width < 2^63 for which the float64 product percent / 100 * width converts
to an `int` n (it is finite and below 2^63), n is the floor of that product, and
`getProgressBar` returns "[" followed by filled copies of █, width - filled
copies of ░ and "]", where filled = min(n, width): exactly width glyphs stand
between the brackets. -/
theorem getProgressBar_spec (percent : F64) (width n : Int)
    (hp : F64.le (F64.ofNat 0) percent = true) (hw : 0 ≤ width) (hlen : 3 * width < 2 ^ 63)
    (hconv : F64.toInt (F64.mul (F64.div percent (F64.ofNat 100)) (F64.ofInt width)) = some n) :
    0 ≤ n ∧
    (n : ℚ) ≤ F64.toRat (F64.mul (F64.div percent (F64.ofNat 100)) (F64.ofInt width)) ∧
    F64.toRat (F64.mul (F64.div percent (F64.ofNat 100)) (F64.ofInt width)) < (n : ℚ) + 1 ∧
    getProgressBar percent width = .ok ("[" ++
      String.mk (List.replicate (min n width).toNat '█') ++
      String.mk (List.replicate (width - min n width).toNat '░') ++ "]") ∧
    (min n width).toNat + (width - min n width).toNat = width.toNat := by
  have hp' : percent.NonNeg := (le_zero_iff percent).1 hp
  rcases bar_product_nonneg percent width hp' hw with hnan | hnn
  · rw [hnan] at hconv
    simp [F64.toInt] at hconv
  · obtain ⟨h0, h1, h2⟩ := toInt_nonneg _ n hnn hconv
    refine ⟨h0, h1, h2, getProgressBar_of_filled percent width n hw hlen h0 hconv, ?_⟩
    have : min n width ≤ width := min_le_right _ _
    have : 0 ≤ min n width := le_min h0 hw
    omega

set_option maxRecDepth 8000 in
/-- Claim C4, amended, at the specification's examples: 0 % gives twenty
empty glyphs, 100 % twenty filled glyphs, and 150 % (product 30) is clamped
to twenty filled glyphs. -/
theorem getProgressBar_spec_witness :
    (F64.le (F64.ofNat 0) (F64.ofNat 150) = true ∧ (0 : Int) ≤ 20 ∧ (3 : Int) * 20 < 2 ^ 63 ∧
      F64.toInt (F64.mul (F64.div (F64.ofNat 150) (F64.ofNat 100)) (F64.ofInt 20)) = some 30) ∧
    getProgressBar (F64.ofNat 150) 20 = .ok "[████████████████████]" ∧
    getProgressBar (F64.ofNat 0) 20 = .ok "[░░░░░░░░░░░░░░░░░░░░]" ∧
    getProgressBar (F64.ofNat 100) 20 = .ok "[████████████████████]" :=
  ⟨by decide,
    (getProgressBar_spec (F64.ofNat 150) 20 30 (by decide) (by decide) (by decide)
      (by decide)).2.2.2.1.trans (by rfl),
    by rfl, by rfl⟩

set_option maxRecDepth 8000 in
/-- Claim C10 as stated fails: with LIMIT_GIB=-1, which parses as a number,
`main` loads the limit -1; for txBytes = 2^30 the percentage is negative
(-100), the filled count is -20 and `getProgressBar` panics in
`strings.Repeat` instead of returning a bar. -/
theorem negative_limit_negative_percent :
    loadLimit (fun s => if s = "-1" then some (F64.ofInt (-1)) else none) "-1" =
      .fin true 1 0 ∧
    F64.lt (.fin true 1 0) (F64.ofNat 0) = true ∧
    F64.lt (percentUsed 1073741824 (.fin true 1 0)) (F64.ofNat 0) = true ∧
    F64.toInt (F64.mul (F64.div (percentUsed 1073741824 (.fin true 1 0)) (F64.ofNat 100))
      (F64.ofInt 20)) = some (-20) ∧
    getProgressBar (percentUsed 1073741824 (.fin true 1 0)) 20 = .panic := by
  decide

/-- Claim C10, amended: when LIMIT_GIB is unset, empty or unparsable the
limit is the default 1024.  For every unsigned 64-bit txBytes: whenever the
loaded limit is positive, the limit and percentUsed are non-negative, and if
the product percent / 100 * 20 converts to an `int` the filled count lies in
0..20 and the bar is returned; whenever the limit is the default or at least
1, the product does convert, so the filled count lies in 0..20. -/
theorem percentUsed_spec (parseFloat : String → Option F64) (limitStr : String)
    (txBytes : Nat) (htx : txBytes < 2 ^ 64) :
    ((limitStr = "" ∨ parseFloat limitStr = none) →
      loadLimit parseFloat limitStr = F64.ofNat 1024) ∧
    (F64.lt (F64.ofNat 0) (loadLimit parseFloat limitStr) = true →
      F64.le (F64.ofNat 0) (loadLimit parseFloat limitStr) = true ∧
      F64.le (F64.ofNat 0) (percentUsed txBytes (loadLimit parseFloat limitStr)) = true ∧
      ∀ n, F64.toInt (F64.mul (F64.div (percentUsed txBytes (loadLimit parseFloat limitStr)) (F64.ofNat 100))
          (F64.ofInt 20)) = some n →
        0 ≤ min n 20 ∧ min n 20 ≤ 20 ∧
        getProgressBar (percentUsed txBytes (loadLimit parseFloat limitStr)) 20 = .ok ("[" ++
          String.mk (List.replicate (min n 20).toNat '█') ++
          String.mk (List.replicate (20 - min n 20).toNat '░') ++ "]")) ∧
    ((limitStr = "" ∨ parseFloat limitStr = none ∨
        F64.le (F64.ofNat 1) (loadLimit parseFloat limitStr) = true) →
      ∃ n, F64.toInt (F64.mul (F64.div (percentUsed txBytes (loadLimit parseFloat limitStr)) (F64.ofNat 100))
          (F64.ofInt 20)) = some n ∧
        0 ≤ min n 20 ∧ min n 20 ≤ 20 ∧
        getProgressBar (percentUsed txBytes (loadLimit parseFloat limitStr)) 20 = .ok ("[" ++
          String.mk (List.replicate (min n 20).toNat '█') ++
          String.mk (List.replicate (20 - min n 20).toNat '░') ++ "]")) := by
  refine ⟨loadLimit_default parseFloat limitStr, ?_, ?_⟩
  · intro hpos
    have hl := (lt_zero_iff _).1 hpos
    have hp := percentUsed_nonneg_of_pos txBytes _ htx hl
    exact ⟨(le_zero_iff _).2 (pos_nonneg _ hl), (le_zero_iff _).2 hp,
      fun n hn => bar_of_conversion _ n hp hn⟩
  · intro h
    have hge : F64.le (F64.ofNat 1) (loadLimit parseFloat limitStr) = true := by
      rcases h with h | h | h
      · rw [loadLimit_default parseFloat limitStr (Or.inl h)]
        decide
      · rw [loadLimit_default parseFloat limitStr (Or.inr h)]
        decide
      · exact h
    exact bar_of_limit_ge_one txBytes _ htx hge

set_option maxRecDepth 8000 in
/-- Claim C10, amended, at a run with LIMIT_GIB unset and
txBytes = 600000000000: the limit is 1024, the percentage about 54.57 and
the bar has 10 filled glyphs. -/
theorem percentUsed_spec_witness :
    (600000000000 < 2 ^ 64) ∧
    loadLimit (fun _ => none) "" = F64.ofNat 1024 ∧
    F64.le (F64.ofNat 0) (percentUsed 600000000000 (loadLimit (fun _ => none) "")) = true ∧
    getProgressBar (percentUsed 600000000000 (loadLimit (fun _ => none) "")) 20 =
      .ok "[██████████░░░░░░░░░░]" :=
  ⟨by norm_num,
    (percentUsed_spec (fun _ => none) "" 600000000000 (by norm_num)).1 (Or.inl rfl),
    ((percentUsed_spec (fun _ => none) "" 600000000000 (by norm_num)).2.1 (by decide)).2.1,
    by rfl⟩

end VnstatMonitor
